import Mathlib

/-!
Verification of the M3U8-Batch-Hunter manifest engine.

This file gives a shallow embedding of the pure core of the repository:
the URL classifier and cleaner (`m3u8_sniffer_utils.py`), the playlist
parser, bitrate estimator and variant selector (`app.py`), and proves the
specified properties about them.

Python strings are modelled as `List Char` (`Str`); bytes produced by
percent-decoding are mapped through `Char.ofNat` (exact for the ASCII
range, which covers the inputs of interest).  Python floats are modelled
as rationals.  Functions that perform network requests are modelled by
abstracting the request as an oracle argument.
-/

namespace M3U8Hunter

abbrev Str := List Char

/-! ## Data model: `M3U8Info` (dataclass in `m3u8_sniffer_utils.py`) -/

structure M3U8Info where
  url : Str
  timestamp : ℚ
  initiator : Option Str := none
  responseHeaders : Option (List (Str × Str)) := none
  statusCode : Option Int := none
  is_master : Bool := false
  is_kaltura : Bool := false
  entry_id : Option Str := none
  flavor_id : Option Str := none
  is_encrypted : Option Bool := none
  resolution : Option Str := none
  bandwidth : Option Int := none
deriving DecidableEq, Repr

/-! ## Capture-time prioritization (`filter_and_prioritize_m3u8s`) -/

def boolN (b : Bool) : Int := if b then 1 else 0

/-- The sort key computed by `priority_key` inside
`filter_and_prioritize_m3u8s`:
`(not (is_kaltura and is_master), not is_master, -(bandwidth or 0),
is_encrypted or False)`. -/
def priority_key (m : M3U8Info) : Bool × Bool × Int × Bool :=
  (!(m.is_kaltura && m.is_master), !m.is_master, -(m.bandwidth.getD 0),
    m.is_encrypted.getD false)

/-- Integer image of a priority tuple, preserving Python tuple order
(`False < True` on booleans). -/
def keyVec (k : Bool × Bool × Int × Bool) : Int × Int × Int × Int :=
  (boolN k.1, boolN k.2.1, k.2.2.1, boolN k.2.2.2)

def vecLe (v w : Int × Int × Int × Int) : Bool :=
  decide (v.1 < w.1 ∨ (v.1 = w.1 ∧ (v.2.1 < w.2.1 ∨ (v.2.1 = w.2.1 ∧
    (v.2.2.1 < w.2.2.1 ∨ (v.2.2.1 = w.2.2.1 ∧ v.2.2.2 ≤ w.2.2.2))))))

/-- Lexicographic order on the priority tuples, as Python compares tuples. -/
def keyLe (k1 k2 : Bool × Bool × Int × Bool) : Bool :=
  vecLe (keyVec k1) (keyVec k2)

def infoLe (a b : M3U8Info) : Bool := keyLe (priority_key a) (priority_key b)

lemma vecLe_trans (v w x : Int × Int × Int × Int) :
    vecLe v w = true → vecLe w x = true → vecLe v x = true := by
  simp only [vecLe, decide_eq_true_eq]
  omega

lemma vecLe_total (v w : Int × Int × Int × Int) :
    (vecLe v w || vecLe w v) = true := by
  simp only [vecLe, Bool.or_eq_true, decide_eq_true_eq]
  omega

lemma keyLe_trans (k1 k2 k3 : Bool × Bool × Int × Bool) :
    keyLe k1 k2 = true → keyLe k2 k3 = true → keyLe k1 k3 = true :=
  vecLe_trans _ _ _

lemma keyLe_total (k1 k2 : Bool × Bool × Int × Bool) :
    (keyLe k1 k2 || keyLe k2 k1) = true :=
  vecLe_total _ _

lemma keyLe_refl (k : Bool × Bool × Int × Bool) : keyLe k k = true := by
  have h := keyLe_total k k
  simpa using h

lemma infoLe_trans (a b c : M3U8Info) :
    infoLe a b = true → infoLe b c = true → infoLe a c = true :=
  keyLe_trans _ _ _

lemma infoLe_total (a b : M3U8Info) : (infoLe a b || infoLe b a) = true :=
  keyLe_total _ _

/-- The duplicate-removal loop of `filter_and_prioritize_m3u8s`: walk the
list keeping a set of `url` values already seen, keeping only the first
record with each url. -/
def dedupGo (seen : List Str) : List M3U8Info → List M3U8Info
  | [] => []
  | m :: rest =>
    if m.url ∈ seen then dedupGo seen rest
    else m :: dedupGo (m.url :: seen) rest

def dedup_by_url (l : List M3U8Info) : List M3U8Info := dedupGo [] l

/-- `filter_and_prioritize_m3u8s` from `m3u8_sniffer_utils.py`: dedup by
exact url, then stable-sort ascending by `priority_key` (Python `sorted`
is a stable merge sort). -/
def filter_and_prioritize_m3u8s (l : List M3U8Info) : List M3U8Info :=
  if l = [] then [] else (dedup_by_url l).mergeSort infoLe

/-- `select_best_variant`: `None` on an empty list, else the head of the
prioritized list. -/
def select_best_variant (l : List M3U8Info) : Option M3U8Info :=
  if l = [] then none else (filter_and_prioritize_m3u8s l).head?

lemma dedupGo_filter_of_mem (u : Str) (seen : List Str) (l : List M3U8Info)
    (hu : u ∈ seen) :
    (dedupGo seen l).filter (fun m => m.url = u) = [] := by
  induction l generalizing seen with
  | nil => simp [dedupGo]
  | cons m rest ih =>
    rw [dedupGo]
    by_cases hm : m.url ∈ seen
    · rw [if_pos hm]; exact ih seen hu
    · rw [if_neg hm]
      have hne : ¬ (m.url = u) := fun h => hm (h ▸ hu)
      rw [List.filter_cons, if_neg (by simpa using hne)]
      exact ih (m.url :: seen) (List.mem_cons_of_mem _ hu)

lemma dedupGo_filter_of_not_mem (u : Str) (seen : List Str) (l : List M3U8Info)
    (hu : u ∉ seen) :
    (dedupGo seen l).filter (fun m => m.url = u) =
      (l.filter (fun m => m.url = u)).take 1 := by
  induction l generalizing seen with
  | nil => simp [dedupGo]
  | cons m rest ih =>
    rw [dedupGo]
    by_cases hm : m.url ∈ seen
    · have hne : ¬ (m.url = u) := fun h => hu (h ▸ hm)
      rw [if_pos hm, List.filter_cons, if_neg (by simpa using hne)]
      exact ih seen hu
    · rw [if_neg hm]
      by_cases hmu : m.url = u
      · subst hmu
        rw [List.filter_cons, if_pos (by simp), List.filter_cons, if_pos (by simp)]
        rw [dedupGo_filter_of_mem _ _ _ (List.mem_cons_self _ _)]
        simp
      · rw [List.filter_cons, if_neg (by simpa using hmu),
          List.filter_cons, if_neg (by simpa using hmu)]
        refine ih (m.url :: seen) ?_
        intro hc
        rcases List.mem_cons.mp hc with h | h
        · exact hmu h.symm
        · exact hu h

lemma dedup_filter (l : List M3U8Info) (u : Str) :
    (dedup_by_url l).filter (fun m => m.url = u) =
      (l.filter (fun m => m.url = u)).take 1 :=
  dedupGo_filter_of_not_mem u [] l (by simp)

lemma filter_and_prioritize_perm (l : List M3U8Info) :
    (filter_and_prioritize_m3u8s l).Perm (dedup_by_url l) := by
  unfold filter_and_prioritize_m3u8s
  by_cases h : l = []
  · simp [h, dedup_by_url, dedupGo]
  · rw [if_neg h]
    exact List.mergeSort_perm _ _

lemma filter_and_prioritize_sorted (l : List M3U8Info) :
    (filter_and_prioritize_m3u8s l).Pairwise (fun a b => infoLe a b = true) := by
  unfold filter_and_prioritize_m3u8s
  by_cases h : l = []
  · simp [h]
  · rw [if_neg h]
    exact List.sorted_mergeSort infoLe_trans infoLe_total _

/-- Stability of Python sort, in filter form: if all records selected by
`p` are mutually tied under `le`, sorting does not reorder them. -/
lemma filter_mergeSort {α : Type} (le : α → α → Bool)
    (htrans : ∀ a b c, le a b = true → le b c = true → le a c = true)
    (htotal : ∀ a b, (le a b || le b a) = true)
    (p : α → Bool) (l : List α)
    (hp : ∀ a b, p a = true → p b = true → le a b = true) :
    (l.mergeSort le).filter p = l.filter p := by
  have hsub : (l.filter p).Sublist l := List.filter_sublist l
  have hpair : (l.filter p).Pairwise (fun a b => le a b = true) :=
    List.pairwise_of_forall_mem_list (fun a ha b hb =>
      hp a b (List.of_mem_filter ha) (List.of_mem_filter hb))
  have h1 : (l.filter p).Sublist (l.mergeSort le) :=
    List.sublist_mergeSort htrans htotal hpair hsub
  have h2 : (l.filter p).Sublist ((l.mergeSort le).filter p) := by
    have h := h1.filter p
    rwa [List.filter_filter, (by simp : (fun a => p a && p a) = p)] at h
  have h3 : ((l.mergeSort le).filter p).Perm (l.filter p) :=
    (List.mergeSort_perm l le).filter p
  exact (h2.eq_of_length h3.length_eq.symm).symm

/-! Concrete capture-time example: one vendor master manifest and two
variants of equal declared bandwidth, one encrypted and one not. -/

def exMaster : M3U8Info :=
  { url := "https://cdnapisec.kaltura.com/p/1/sp/0/playManifest/entryId/e1/format/applehttp".toList
    timestamp := 0, is_master := true, is_kaltura := true }

def exV1080 : M3U8Info :=
  { url := "https://cdn.example.com/v1080.m3u8".toList, timestamp := 1,
    bandwidth := some 2000000, is_encrypted := some false }

def exV720 : M3U8Info :=
  { url := "https://cdn.example.com/v720.m3u8".toList, timestamp := 2,
    bandwidth := some 2000000, is_encrypted := some true }

unseal List.merge List.mergeSort in
lemma exPriority_eval :
    filter_and_prioritize_m3u8s [exV720, exV720, exV1080, exMaster] =
      [exMaster, exV1080, exV720] := by rfl

lemma dedup_ne_nil (l : List M3U8Info) (h : l ≠ []) : dedup_by_url l ≠ [] := by
  cases l with
  | nil => exact absurd rfl h
  | cons m rest =>
    rw [dedup_by_url, dedupGo]
    simp

/-- C1: capture-time prioritization removes exact-URL duplicates (keeping
the first record captured for each URL) and orders the remaining records
ascending by the tuple (not-vendor-master, not-any-master, negative
declared bandwidth-or-0, is-encrypted); on the end-to-end example the
vendor master ranks first and the unencrypted variant precedes the
encrypted variant of equal declared bandwidth. -/
theorem C1_capture_prioritization :
    (∀ l : List M3U8Info,
      (filter_and_prioritize_m3u8s l).Perm (dedup_by_url l) ∧
      (filter_and_prioritize_m3u8s l).Pairwise (fun a b => infoLe a b = true) ∧
      ∀ u : Str, (dedup_by_url l).filter (fun m => m.url = u) =
        (l.filter (fun m => m.url = u)).take 1) ∧
    filter_and_prioritize_m3u8s [exV720, exV720, exV1080, exMaster] =
      [exMaster, exV1080, exV720] :=
  ⟨fun l => ⟨filter_and_prioritize_perm l, filter_and_prioritize_sorted l,
    fun u => dedup_filter l u⟩, exPriority_eval⟩

/-- C10: `select_best_variant` returns `none` exactly on the empty list;
on a non-empty list it returns the head of the prioritized ordering, which
is a record of the deduplicated list no worse, under the priority order,
than any deduplicated record; deduplication keeps the first-captured
record per URL. -/
theorem C10_select_best_variant :
    (∀ l : List M3U8Info, (select_best_variant l = none ↔ l = [])) ∧
    (∀ (l : List M3U8Info) (x : M3U8Info), select_best_variant l = some x →
      (filter_and_prioritize_m3u8s l).head? = some x ∧
      x ∈ dedup_by_url l ∧
      ∀ m ∈ dedup_by_url l, infoLe x m = true) ∧
    (∀ (l : List M3U8Info) (u : Str),
      (dedup_by_url l).filter (fun m => m.url = u) =
        (l.filter (fun m => m.url = u)).take 1) := by
  refine ⟨fun l => ?_, fun l x hx => ?_, fun l u => dedup_filter l u⟩
  · constructor
    · intro h
      by_contra hne
      rw [select_best_variant, if_neg hne] at h
      have hnil : filter_and_prioritize_m3u8s l = [] := List.head?_eq_none_iff.mp h
      have h2 := filter_and_prioritize_perm l
      rw [hnil] at h2
      exact dedup_ne_nil l hne (List.Perm.nil_eq h2).symm
    · intro h
      rw [select_best_variant, if_pos h]
  · have hne : l ≠ [] := by
      intro h
      rw [select_best_variant, if_pos h] at hx
      exact Option.noConfusion hx
    rw [select_best_variant, if_neg hne] at hx
    refine ⟨hx, ?_, ?_⟩
    · have hmem : x ∈ filter_and_prioritize_m3u8s l := by
        cases hfp : filter_and_prioritize_m3u8s l with
        | nil => rw [hfp] at hx; exact Option.noConfusion hx
        | cons a rest =>
          rw [hfp] at hx
          simp only [List.head?_cons, Option.some.injEq] at hx
          rw [← hx]; exact List.mem_cons_self a rest
      exact (filter_and_prioritize_perm l).mem_iff.mp hmem
    · intro m hm
      have hmem : m ∈ filter_and_prioritize_m3u8s l :=
        (filter_and_prioritize_perm l).mem_iff.mpr hm
      cases hfp : filter_and_prioritize_m3u8s l with
      | nil => rw [hfp] at hmem; exact absurd hmem (List.not_mem_nil m)
      | cons a rest =>
        rw [hfp] at hx hmem
        simp only [List.head?_cons, Option.some.injEq] at hx
        subst hx
        have hsorted := filter_and_prioritize_sorted l
        rw [hfp] at hsorted
        rcases List.mem_cons.mp hmem with h | h
        · rw [h]; exact keyLe_refl _
        · exact (List.pairwise_cons.mp hsorted).1 m h

unseal List.merge List.mergeSort in
theorem C10_select_best_variant_witness :
    exV1080 ∈ dedup_by_url [exV720, exV1080] :=
  ((C10_select_best_variant).2.1 [exV720, exV1080] exV1080 (by rfl)).2.1

/-! ## URL classification (`m3u8_sniffer_utils.py`) -/

/-- ASCII model of Python `str.lower()`. -/
def lowerStr (s : Str) : Str := s.map Char.toLower

/-- `startsWithStr s p` is true when `p` is an initial segment of `s`. -/
def startsWithStr : Str → Str → Bool
  | _, [] => true
  | [], _ :: _ => false
  | c :: s, p :: ps => c == p && startsWithStr s ps

/-- Python substring test `pat in s`. -/
def containsStr (s pat : Str) : Bool :=
  match s with
  | [] => startsWithStr [] pat
  | _ :: rest => startsWithStr s pat || containsStr rest pat

lemma startsWithStr_iff (s p : Str) : startsWithStr s p = true ↔ ∃ r, s = p ++ r := by
  induction p generalizing s with
  | nil => simp [startsWithStr]
  | cons c ps ih =>
    cases s with
    | nil => simp [startsWithStr]
    | cons a s' =>
      rw [startsWithStr, Bool.and_eq_true, ih s']
      constructor
      · rintro ⟨hc, r, hr⟩
        exact ⟨r, by simp [List.cons_append, beq_iff_eq.mp hc, hr]⟩
      · rintro ⟨r, hr⟩
        rw [List.cons_append, List.cons.injEq] at hr
        exact ⟨beq_iff_eq.mpr hr.1, r, hr.2⟩

lemma containsStr_iff (s pat : Str) :
    containsStr s pat = true ↔ ∃ l r, s = l ++ pat ++ r := by
  induction s with
  | nil =>
    rw [containsStr, startsWithStr_iff]
    constructor
    · rintro ⟨r, hr⟩; exact ⟨[], r, hr⟩
    · rintro ⟨l, r, hr⟩
      cases l with
      | nil => exact ⟨r, by simpa using hr⟩
      | cons a l' => simp at hr
  | cons c rest ih =>
    rw [containsStr, Bool.or_eq_true, startsWithStr_iff, ih]
    constructor
    · rintro (⟨r, hr⟩ | ⟨l, r, hr⟩)
      · exact ⟨[], r, by simpa using hr⟩
      · exact ⟨c :: l, r, by simp [hr]⟩
    · rintro ⟨l, r, hr⟩
      cases l with
      | nil => exact Or.inl ⟨r, by simpa using hr⟩
      | cons a l' =>
        rw [List.cons_append, List.cons_append, List.cons.injEq] at hr
        exact Or.inr ⟨l', r, hr.2⟩

/-- `detect_master_vs_variant` from `m3u8_sniffer_utils.py`: substring
heuristics on the lowercased URL. -/
def detect_master_vs_variant (url : Str) : Bool :=
  let u := lowerStr url
  if containsStr u "playmanifest".toList && containsStr u "kaltura".toList then
    true
  else if containsStr u "master.m3u8".toList || containsStr u "manifest.m3u8".toList ||
      containsStr u "playlist.m3u8".toList then
    true
  else if containsStr u "entryid".toList && !containsStr u "flavorid".toList then
    true
  else
    false

/-- Matching of the regex `/entryId/([^/]+)` (case-insensitive `search`):
the leftmost occurrence of the token followed by at least one non-slash
character; the capture is the maximal run of non-slash characters, in
original case. -/
def scanIdPat (pat : Str) : Str → Option Str
  | [] => none
  | s@(_ :: rest) =>
    if startsWithStr (lowerStr s) pat then
      let captured := (s.drop pat.length).takeWhile (fun c => c ≠ '/')
      if captured = [] then scanIdPat pat rest else some captured
    else scanIdPat pat rest

/-- `extract_kaltura_ids`: entryId and flavorId captures. -/
def extract_kaltura_ids (url : Str) : Option Str × Option Str :=
  (scanIdPat "/entryid/".toList url, scanIdPat "/flavorid/".toList url)

/-- Continuation admitted by `($|\?)` in `M3U8_URL_REGEX`: end of string,
a literal question mark, or the final newline matched by `$`. -/
def m3u8SuffixOk : Str → Bool
  | [] => true
  | '?' :: _ => true
  | ['\n'] => true
  | _ => false

/-- `re.search` of `.*\.m3u8($|\?)` on the lowercased URL: some occurrence
of `.m3u8` whose continuation is admitted. -/
def m3u8UrlSearch : Str → Bool
  | [] => false
  | s@(_ :: rest) =>
    (startsWithStr s ".m3u8".toList && m3u8SuffixOk (s.drop 5)) || m3u8UrlSearch rest

/-- `is_m3u8_url`: empty guard, then the URL regex or the comprehensive
substring alternation. -/
def is_m3u8_url (url : Str) : Bool :=
  if url = [] then false
  else
    let u := lowerStr url
    m3u8UrlSearch u ||
      (containsStr u ".m3u8".toList || containsStr u "/manifest.m3u8".toList ||
        containsStr u "playlist.m3u8".toList || containsStr u "master.m3u8".toList ||
        containsStr u "index.m3u8".toList)

/-! Python-level wrappers recording which calls raise: `None` has no
`.lower()` (AttributeError) and `re.search` rejects `None`
(TypeError), while `is_m3u8_url` guards with `if not url`. -/

inductive PyErr
  | typeError
  | attributeError
deriving DecidableEq, Repr

def pyIs_m3u8_url : Option Str → Except PyErr Bool
  | none => .ok false
  | some s => .ok (is_m3u8_url s)

def pyDetect_master_vs_variant : Option Str → Except PyErr Bool
  | none => .error .attributeError
  | some s => .ok (detect_master_vs_variant s)

def pyExtract_kaltura_ids : Option Str → Except PyErr (Option Str × Option Str)
  | none => .error .typeError
  | some s => .ok (extract_kaltura_ids s)

/-! ## C7 and C8: classification claims -/

/-- Modelled from the spec: the claim's reading of
`detectMasterVsVariant`.  The filename (last path segment, query and
fragment removed) must be exactly one of the three master names; the
vendor endpoint pattern is the repository's own
`KALTURA_PLAYMANIFEST_REGEX` (`kaltura\.com.*playmanifest`); the entry and
flavor identifiers are the repository's path captures. -/
def fileNameOf (url : Str) : Str :=
  let noFrag := url.takeWhile (fun c => c ≠ '#')
  let noQuery := noFrag.takeWhile (fun c => c ≠ '?')
  (noQuery.reverse.takeWhile (fun c => c ≠ '/')).reverse

/-- `kaltura\.com.*playmanifest` searched case-insensitively (on an input
without newlines this is: an occurrence of `kaltura.com` with
`playmanifest` somewhere after it). -/
def kalturaPlayPat : Str → Bool
  | [] => false
  | s@(_ :: rest) =>
    (startsWithStr s "kaltura.com".toList &&
      containsStr (s.drop 11) "playmanifest".toList) || kalturaPlayPat rest

lemma containsStr_eq_false_iff (s pat : Str) :
    containsStr s pat = false ↔ ¬ ∃ l r, s = l ++ pat ++ r := by
  rw [← containsStr_iff]
  cases containsStr s pat <;> simp

def detectSpecC7 (url : Str) : Bool :=
  let u := lowerStr url
  kalturaPlayPat u ||
    (fileNameOf u = "master.m3u8".toList || fileNameOf u = "manifest.m3u8".toList ||
      fileNameOf u = "playlist.m3u8".toList) ||
    ((scanIdPat "/entryid/".toList u).isSome && (scanIdPat "/flavorid/".toList u).isNone)

/-- C7 counterexample: the code tests the three master names as
substrings, not as the exact filename, so a URL whose filename merely
contains `master.m3u8` is classified as a master although the claim makes
it a variant. -/
theorem C7_counterexample :
    detect_master_vs_variant ("https://a/b/xmaster.m3u8".toList) = true ∧
    detectSpecC7 ("https://a/b/xmaster.m3u8".toList) = false := by
  constructor <;> decide

set_option maxHeartbeats 2000000 in
/-- C7 amended: `detect_master_vs_variant` is true exactly when the
lowercased URL contains both `playmanifest` and `kaltura`, or contains one
of the substrings `master.m3u8`, `manifest.m3u8`, `playlist.m3u8`
anywhere, or contains `entryid` but not `flavorid`; in particular it is
false for a URL with both entryId and flavorId segments and true for one
with only an entryId segment. -/
theorem C7_detect_master_vs_variant :
    (∀ url : Str, detect_master_vs_variant url = true ↔
      (((∃ l r, lowerStr url = l ++ "playmanifest".toList ++ r) ∧
          (∃ l r, lowerStr url = l ++ "kaltura".toList ++ r)) ∨
        (((∃ l r, lowerStr url = l ++ "master.m3u8".toList ++ r) ∨
            (∃ l r, lowerStr url = l ++ "manifest.m3u8".toList ++ r)) ∨
          (∃ l r, lowerStr url = l ++ "playlist.m3u8".toList ++ r))) ∨
      ((∃ l r, lowerStr url = l ++ "entryid".toList ++ r) ∧
        ¬ (∃ l r, lowerStr url = l ++ "flavorid".toList ++ r))) ∧
    detect_master_vs_variant
      ("https://cdn.example.com/hls/entryId/e1/flavorId/f7/seg/index.m3u8".toList) = false ∧
    detect_master_vs_variant
      ("https://cdn.example.com/hls/entryId/e1/index.m3u8".toList) = true := by
  refine ⟨fun url => ?_, by decide, by decide⟩
  have hb : detect_master_vs_variant url =
      ((containsStr (lowerStr url) "playmanifest".toList &&
          containsStr (lowerStr url) "kaltura".toList) ||
        (containsStr (lowerStr url) "master.m3u8".toList ||
          containsStr (lowerStr url) "manifest.m3u8".toList ||
          containsStr (lowerStr url) "playlist.m3u8".toList) ||
        (containsStr (lowerStr url) "entryid".toList &&
          !containsStr (lowerStr url) "flavorid".toList)) := by
    simp only [detect_master_vs_variant]
    cases h1 : containsStr (lowerStr url) "playmanifest".toList &&
        containsStr (lowerStr url) "kaltura".toList <;>
      cases h2 : containsStr (lowerStr url) "master.m3u8".toList ||
          containsStr (lowerStr url) "manifest.m3u8".toList ||
          containsStr (lowerStr url) "playlist.m3u8".toList <;>
        cases h3 : containsStr (lowerStr url) "entryid".toList &&
            !containsStr (lowerStr url) "flavorid".toList <;>
          simp [h1, h2, h3]
  rw [hb]
  simp only [Bool.or_eq_true, Bool.and_eq_true, Bool.not_eq_true',
    containsStr_eq_false_iff, containsStr_iff]

/-- C8 counterexample: `detect_master_vs_variant(None)` raises
`AttributeError` (no `None.lower()`) and `extract_kaltura_ids(None)`
raises `TypeError` (`re.search` rejects `None`), so not every
classification function degrades to false/null on `None`. -/
theorem C8_counterexample :
    pyDetect_master_vs_variant none = .error .attributeError ∧
    pyExtract_kaltura_ids none = .error .typeError := ⟨rfl, rfl⟩

/-- C8 amended: the classification functions are total on every string
input (empty or malformed included), and `is_m3u8_url` also degrades to
false on `None`; but `detect_master_vs_variant` and `extract_kaltura_ids`
raise on `None`. -/
theorem C8_classification_totality :
    (∀ s : Str, pyIs_m3u8_url (some s) = .ok (is_m3u8_url s)) ∧
    (∀ s : Str, pyDetect_master_vs_variant (some s) = .ok (detect_master_vs_variant s)) ∧
    (∀ s : Str, pyExtract_kaltura_ids (some s) = .ok (extract_kaltura_ids s)) ∧
    pyIs_m3u8_url none = .ok false ∧
    pyIs_m3u8_url (some []) = .ok false ∧
    pyDetect_master_vs_variant none = .error .attributeError ∧
    pyExtract_kaltura_ids none = .error .typeError :=
  ⟨fun _ => rfl, fun _ => rfl, fun _ => rfl, rfl, rfl, rfl, rfl⟩

/-! ## Python string primitives -/

/-- ASCII model of Python `str.upper()`. -/
def upperStr (s : Str) : Str := s.map Char.toUpper

def isPySpace (c : Char) : Bool :=
  c = ' ' || c = '\t' || c = '\n' || c = '\x0b' || c = '\x0c' || c = '\r'

/-- Python `str.strip()` (ASCII whitespace). -/
def pyStrip (s : Str) : Str :=
  ((s.dropWhile isPySpace).reverse.dropWhile isPySpace).reverse

/-- Python `str.splitlines()` on the boundaries `\n`, `\r\n`, `\r` (the
rarer vertical-tab/form-feed/unicode boundaries do not occur in
manifests).  No trailing empty line is produced. -/
def splitlinesGo (acc : Str) : Str → List Str
  | [] => [acc.reverse]
  | '\r' :: '\n' :: rest =>
    acc.reverse :: (if rest = [] then [] else splitlinesGo [] rest)
  | '\n' :: rest =>
    acc.reverse :: (if rest = [] then [] else splitlinesGo [] rest)
  | '\r' :: rest =>
    acc.reverse :: (if rest = [] then [] else splitlinesGo [] rest)
  | c :: rest => splitlinesGo (c :: acc) rest

def splitlines (s : Str) : List Str :=
  if s = [] then [] else splitlinesGo [] s

/-- Python `str.split(sep)` for a one-character separator. -/
def splitOnCharGo (sep : Char) (acc : Str) : Str → List Str
  | [] => [acc.reverse]
  | c :: rest =>
    if c = sep then acc.reverse :: splitOnCharGo sep [] rest
    else splitOnCharGo sep (c :: acc) rest

def splitOnChar (sep : Char) (s : Str) : List Str := splitOnCharGo sep [] s

def digitsVal (ds : Str) : Nat := ds.foldl (fun n c => 10 * n + (c.toNat - 48)) 0

/-- Python `int(str)`: strip, optional sign, decimal digits (the rare
underscore grouping is not modelled). -/
def pyInt (s : Str) : Option Int :=
  let t := pyStrip s
  let core : Str → Option Nat := fun ds =>
    if ds ≠ [] ∧ ds.all Char.isDigit then some (digitsVal ds) else none
  match t with
  | '+' :: ds => (core ds).map Int.ofNat
  | '-' :: ds => (core ds).map (fun n => -(n : Int))
  | ds => (core ds).map Int.ofNat

def takeDigits (s : Str) : Str × Str := (s.takeWhile Char.isDigit, s.dropWhile Char.isDigit)

/-- Python `float(str)` restricted to finite decimal literals with an
optional exponent (`inf`/`nan`/underscores are not modelled); the value is
the exact rational, standing in for the IEEE double. -/
def pyFloat (s0 : Str) : Option ℚ :=
  let s := pyStrip s0
  let signed : ℚ × Str :=
    match s with
    | '+' :: r => (1, r)
    | '-' :: r => (-1, r)
    | r => (1, r)
  let sign := signed.1
  let (ip, r1) := takeDigits signed.2
  let fracced : Option Str × Str :=
    match r1 with
    | '.' :: r => ((takeDigits r).1, (takeDigits r).2)
    | r => (none, r)
  let fp := fracced.1
  let r2 := fracced.2
  if ip = [] ∧ (fp = none ∨ fp = some []) then none
  else
    let mant : ℚ := sign * ((digitsVal ip : ℚ) +
      (match fp with
       | some d => (digitsVal d : ℚ) / (10 : ℚ) ^ d.length
       | none => 0))
    match r2 with
    | [] => some mant
    | 'e' :: r =>
      let esigned : Int × Str :=
        match r with
        | '+' :: rr => (1, rr)
        | '-' :: rr => (-1, rr)
        | rr => (1, rr)
      let (ed, r4) := takeDigits esigned.2
      if ed = [] ∨ r4 ≠ [] then none
      else some (mant * (10 : ℚ) ^ (esigned.1 * (digitsVal ed : Int)))
    | 'E' :: r =>
      let esigned : Int × Str :=
        match r with
        | '+' :: rr => (1, rr)
        | '-' :: rr => (-1, rr)
        | rr => (1, rr)
      let (ed, r4) := takeDigits esigned.2
      if ed = [] ∨ r4 ≠ [] then none
      else some (mant * (10 : ℚ) ^ (esigned.1 * (digitsVal ed : Int)))
    | _ => none

/-! ## `urllib.parse` model -/

structure ParseResult where
  scheme : Str
  netloc : Str
  path : Str
  params : Str
  query : Str
  fragment : Str
deriving DecidableEq, Repr

def schemeChar (c : Char) : Bool :=
  c.isAlpha || c.isDigit || c = '+' || c = '-' || c = '.'

/-- The scheme step of `urlsplit`: chars before the first `:` form the
scheme when the first is a letter and all are scheme characters;
otherwise the default scheme is kept. -/
def headAlpha : Str → Bool
  | c :: _ => c.isAlpha
  | [] => false

def splitScheme (dflt : Str) (url : Str) : Str × Str :=
  match url.findIdx? (fun c => c = ':') with
  | some i =>
    if 0 < i ∧ headAlpha url ∧ (url.take i).all schemeChar then
      (lowerStr (url.take i), url.drop (i + 1))
    else (dflt, url)
  | none => (dflt, url)

def netlocDelim (c : Char) : Bool := c = '/' || c = '?' || c = '#'

def splitNetloc (s : Str) : Str × Str :=
  (s.takeWhile (fun c => !netlocDelim c), s.dropWhile (fun c => !netlocDelim c))

/-- `urllib.parse.urlsplit` (allow_fragments true). -/
def urlsplitStr (dflt : Str) (url : Str) : ParseResult :=
  let su := splitScheme dflt url
  let scheme := su.1
  let u1 := su.2
  let nu := if startsWithStr u1 "//".toList then splitNetloc (u1.drop 2) else ([], u1)
  let netloc := nu.1
  let u2 := nu.2
  let fu : Str × Str :=
    if u2.contains '#' then
      (u2.takeWhile (fun c => c ≠ '#'), (u2.dropWhile (fun c => c ≠ '#')).drop 1)
    else (u2, [])
  let qu : Str × Str :=
    if fu.1.contains '?' then
      (fu.1.takeWhile (fun c => c ≠ '?'), (fu.1.dropWhile (fun c => c ≠ '?')).drop 1)
    else (fu.1, [])
  ⟨scheme, netloc, qu.1, [], qu.2, fu.2⟩

/-- `_splitparams`: split `;params` off the last path segment. -/
def splitParams (p : Str) : Str × Str :=
  if p.contains '/' then
    let seg := (p.reverse.takeWhile (fun c => c ≠ '/')).reverse
    let pre := p.take (p.length - seg.length)
    if seg.contains ';' then
      (pre ++ seg.takeWhile (fun c => c ≠ ';'), (seg.dropWhile (fun c => c ≠ ';')).drop 1)
    else (p, [])
  else if p.contains ';' then
    (p.takeWhile (fun c => c ≠ ';'), (p.dropWhile (fun c => c ≠ ';')).drop 1)
  else (p, [])

/-- `urllib.parse.urlparse`. -/
def urlparseStr (dflt : Str) (url : Str) : ParseResult :=
  let r := urlsplitStr dflt url
  let pp := splitParams r.path
  ⟨r.scheme, r.netloc, pp.1, pp.2, r.query, r.fragment⟩

/-- `urllib.parse.urlunparse` (via `urlunsplit`). -/
def urlunparseStr (p : ParseResult) : Str :=
  let url0 := if p.params ≠ [] then p.path ++ ';' :: p.params else p.path
  let url1 :=
    if p.netloc ≠ [] ∨ startsWithStr url0 "//".toList then
      let u := if url0 ≠ [] ∧ url0.head? ≠ some '/' then '/' :: url0 else url0
      '/' :: '/' :: (p.netloc ++ u)
    else url0
  let url2 := if p.scheme ≠ [] then p.scheme ++ ':' :: url1 else url1
  let url3 := if p.query ≠ [] then url2 ++ '?' :: p.query else url2
  if p.fragment ≠ [] then url3 ++ '#' :: p.fragment else url3

def usesRelative : List Str :=
  ["", "ftp", "http", "gopher", "nntp", "imap", "wais", "file", "https",
    "shttp", "mms", "prospero", "rtsp", "rtspu", "sftp", "svn", "svn+ssh",
    "ws", "wss"].map String.toList

def usesNetloc : List Str :=
  ["", "ftp", "http", "gopher", "nntp", "telnet", "imap", "wais", "file",
    "mms", "https", "shttp", "snews", "prospero", "rtsp", "rtspu", "rsync",
    "svn", "svn+ssh", "sftp", "nfs", "git", "git+ssh", "ws", "wss",
    "itms-services"].map String.toList

/-- `urllib.parse.urljoin`. -/
def urljoinStr (base url : Str) : Str :=
  if base = [] then url
  else if url = [] then base
  else
    let b := urlparseStr [] base
    let r := urlparseStr b.scheme url
    if r.scheme ≠ b.scheme ∨ r.scheme ∉ usesRelative then url
    else
      let contNetloc : Bool := r.scheme ∈ usesNetloc
      if contNetloc ∧ r.netloc ≠ [] then urlunparseStr r
      else
        let netloc := if contNetloc then b.netloc else r.netloc
        if r.path = [] ∧ r.params = [] then
          let query := if r.query = [] then b.query else r.query
          urlunparseStr ⟨r.scheme, netloc, b.path, b.params, query, r.fragment⟩
        else
          let baseParts0 := splitOnChar '/' b.path
          let baseParts :=
            if baseParts0.getLast? ≠ some ([] : Str) then baseParts0.dropLast
            else baseParts0
          let segments :=
            if r.path.head? = some '/' then splitOnChar '/' r.path
            else
              let segs := baseParts ++ splitOnChar '/' r.path
              if segs.length ≤ 2 then segs
              else
                segs.take 1 ++ ((segs.drop 1).dropLast.filter (fun x => x ≠ [])) ++
                  segs.drop (segs.length - 1)
          let resolved0 := segments.foldl (fun acc seg =>
              if seg = "..".toList then acc.dropLast
              else if seg = ".".toList then acc
              else acc ++ [seg]) []
          let resolved :=
            if segments.getLast? = some "..".toList ∨ segments.getLast? = some ".".toList
            then resolved0 ++ [([] : Str)] else resolved0
          let joined := List.intercalate ['/'] resolved
          let path := if joined = [] then ['/'] else joined
          urlunparseStr ⟨r.scheme, netloc, path, r.params, r.query, r.fragment⟩

/-! ## Playlist parser (`app.py`) -/

/-- Python dict assignment `out[k] = v`: overwrite in place or append. -/
def dictSet : List (Str × Str) → Str → Str → List (Str × Str)
  | [], k, v => [(k, v)]
  | (k0, v0) :: rest, k, v =>
    if k0 = k then (k, v) :: rest else (k0, v0) :: dictSet rest k v

def dictGet (d : List (Str × Str)) (k : Str) : Option Str :=
  (d.find? (fun kv => kv.1 = k)).map (fun kv => kv.2)

/-- The split of `re.split` on the pattern used by `parse_attribute_list`
(a comma not followed by non-quote characters and a quote): a comma is a
split point exactly when no double quote occurs anywhere to its right.
Processes the reversed string, tracking whether a quote was seen. -/
def smartSplitRev (cur : Str) (sq : Bool) : Str → List Str
  | [] => [cur]
  | c :: rest =>
    if c = ',' ∧ sq = false then cur :: smartSplitRev [] sq rest
    else smartSplitRev (c :: cur) (sq || c = '"') rest

def smartSplit (s : Str) : List Str := (smartSplitRev [] false s.reverse).reverse

/-- `parse_attribute_list` from `app.py`. -/
def parse_attribute_list (s : Str) : List (Str × Str) :=
  (smartSplit s).foldl (fun out part =>
    if part.contains '=' then
      let k := part.takeWhile (fun c => c ≠ '=')
      let v1 := pyStrip ((part.dropWhile (fun c => c ≠ '=')).drop 1)
      let v :=
        if v1.head? = some '"' ∧ v1.getLast? = some '"' then (v1.drop 1).dropLast
        else v1
      dictSet out (pyStrip k) v
    else out) []

structure Variant where
  playlist : Str
  bandwidth : Int
  resolution : Option Str
  codecs : Option Str
deriving DecidableEq, Repr

/-- Python `a or b` on an optional string: falls through on `None` and on
the empty string. -/
def pyOrStr (a : Option Str) (b : Str) : Str :=
  match a with
  | some v => if v = [] then b else v
  | none => b

/-- One descriptor built by `list_variants_from_master` from a
`#EXT-X-STREAM-INF:` line and the line after it. -/
def mkVariant (masterUrl line nextLine : Str) : Variant :=
  let attrs := parse_attribute_list ((line.dropWhile (fun c => c ≠ ':')).drop 1)
  let bwStr := pyOrStr (dictGet attrs "AVERAGE-BANDWIDTH".toList)
    (pyOrStr (dictGet attrs "BANDWIDTH".toList) "0".toList)
  { playlist := urljoinStr masterUrl (pyStrip nextLine)
    bandwidth := (pyInt bwStr).getD 0
    resolution := dictGet attrs "RESOLUTION".toList
    codecs := dictGet attrs "CODECS".toList }

def isStreamInf (line : Str) : Bool :=
  startsWithStr (upperStr line) "#EXT-X-STREAM-INF:".toList

/-- The indexed loop of `list_variants_from_master`: a line produces a
descriptor when it is a `#EXT-X-STREAM-INF:` line and `i + 1 < len`. -/
def variantsGo (masterUrl : Str) : List Str → List Variant
  | [] => []
  | [_] => []
  | a :: b :: rest =>
    (if isStreamInf a then [mkVariant masterUrl a b] else []) ++
      variantsGo masterUrl (b :: rest)

/-- `list_variants_from_master`, with the fetched body passed in (the
network GET of `fetch_text` is outside the model; a fetch failure raises
before this code runs). -/
def list_variants_from_master (masterUrl text : Str) : List Variant :=
  variantsGo masterUrl ((splitlines text).map pyStrip)

structure VariantAnalysis where
  is_vod : Bool
  total_seconds : Option ℚ
  encrypted : Bool
  segments : List (ℚ × Str)
deriving DecidableEq, Repr

/-- The `#EXTINF:` duration field: after the first colon, before the
first comma, stripped. -/
def extInfDur (ln : Str) : Str :=
  pyStrip (((ln.dropWhile (fun c => c ≠ ':')).drop 1).takeWhile (fun c => c ≠ ','))

def isUriLine (ln : Str) : Bool := !startsWithStr ln "#".toList && !ln.isEmpty

/-- The segment loop of `analyze_variant`: `last_dur` is set by each
`#EXTINF:` line and consumed by the next URI line; returns the running
total and the segment list. -/
def consumeDur (url : Str) (lastDur : Option ℚ) (ln : Str)
    (r : ℚ × List (ℚ × Str)) : ℚ × List (ℚ × Str) :=
  match lastDur with
  | some d => (d + r.1, (d, urljoinStr url ln) :: r.2)
  | none => r

def analyzeGoT (url : Str) (lastDur : Option ℚ) : List Str → ℚ × List (ℚ × Str)
  | [] => (0, [])
  | ln :: rest =>
    if startsWithStr ln "#EXTINF:".toList then
      analyzeGoT url (pyFloat (extInfDur ln)) rest
    else if isUriLine ln then
      consumeDur url lastDur ln (analyzeGoT url none rest)
    else analyzeGoT url lastDur rest

/-- `analyze_variant` from `app.py`, with the fetched body passed in. -/
def analyze_variant (variantUrl text : Str) : VariantAnalysis :=
  let lines := (splitlines text).map pyStrip
  let is_vod := lines.any (fun ln => ln = "#EXT-X-ENDLIST".toList)
  let r := analyzeGoT variantUrl none lines
  { is_vod
    total_seconds := if is_vod then some r.1 else none
    encrypted := lines.any (fun ln => startsWithStr ln "#EXT-X-KEY:".toList)
    segments := r.2 }

/-! ## C5: master-playlist parsing -/

/-- Modelled from the spec: the claim's attribute split, "splitting only
on commas outside double quotes", tracking an in-quotes state. -/
def specSplitAttrsGo (cur : Str) (inQ : Bool) : Str → List Str
  | [] => [cur.reverse]
  | c :: rest =>
    if c = ',' ∧ inQ = false then cur.reverse :: specSplitAttrsGo [] inQ rest
    else specSplitAttrsGo (c :: cur) (if c = '"' then !inQ else inQ) rest

def specSplitAttrsC5 (s : Str) : List Str := specSplitAttrsGo [] false s

/-- C5 fails as stated: the regex `,(?![^"]*")` splits a comma only when
no double quote occurs anywhere after it, so the commas before a quoted
`CODECS` value are not split and the declared bandwidth parses to 0; and
the playlist URI is taken from the immediately following line even when
blank (resolving to the master URL itself), while a trailing
`#EXT-X-STREAM-INF:` line yields no descriptor at all. -/
theorem C5_counterexample :
    (list_variants_from_master "https://x/m.m3u8".toList
        ("#EXT-X-STREAM-INF:BANDWIDTH=2000000,CODECS=\"avc1.4d401f,mp4a.40.2\"\nv.m3u8".toList)).map
      (fun v => v.bandwidth) = [0] ∧
    specSplitAttrsC5 ("BANDWIDTH=2000000,CODECS=\"avc1.4d401f,mp4a.40.2\"".toList) =
      ["BANDWIDTH=2000000".toList, "CODECS=\"avc1.4d401f,mp4a.40.2\"".toList] ∧
    smartSplit ("BANDWIDTH=2000000,CODECS=\"avc1.4d401f,mp4a.40.2\"".toList) =
      [("BANDWIDTH=2000000,CODECS=\"avc1.4d401f,mp4a.40.2\"".toList)] ∧
    (list_variants_from_master "https://x/m.m3u8".toList
        ("#EXT-X-STREAM-INF:BANDWIDTH=1000000\n\nv.m3u8".toList)).map
      (fun v => (v.playlist, v.bandwidth)) = [("https://x/m.m3u8".toList, 1000000)] ∧
    list_variants_from_master "https://x/m.m3u8".toList
      ("#EXT-X-STREAM-INF:BANDWIDTH=1000000".toList) = [] := by
  exact ⟨by decide, by decide, by decide, by decide, by decide⟩

lemma variantsGo_eq (m : Str) : ∀ lines : List Str,
    variantsGo m lines = (lines.zip lines.tail).filterMap
      (fun ab => if isStreamInf ab.1 then some (mkVariant m ab.1 ab.2) else none)
  | [] => by simp [variantsGo]
  | [a] => by simp [variantsGo]
  | a :: b :: rest => by
    rw [variantsGo, variantsGo_eq m (b :: rest)]
    rw [List.tail_cons, List.tail_cons, List.zip_cons_cons, List.filterMap_cons]
    by_cases h : isStreamInf a <;> simp [h]

def exC5Text : Str :=
  ("#EXTM3U\n#EXT-X-STREAM-INF:BANDWIDTH=2000000,RESOLUTION=1280x720\nv720.m3u8\n" ++
   "#EXT-X-STREAM-INF:BANDWIDTH=5000000,RESOLUTION=1920x1080\nv1080.m3u8\n" ++
   "#EXT-X-STREAM-INF:BANDWIDTH=800000\nv480.m3u8").toList

/-- C5 amended: parsing produces one descriptor per `#EXT-X-STREAM-INF:`
line that is not the last line, in file order; the playlist URI is the
immediately following line (blank or not) resolved against the master
URL; the attribute list is split only at commas with no double quote
anywhere after them; bandwidth prefers AVERAGE-BANDWIDTH, else BANDWIDTH,
else 0 (non-numeric gives 0).  The three-variant example parses in file
order with resolved absolute URLs. -/
theorem C5_list_variants_from_master :
    (∀ masterUrl text : Str,
      list_variants_from_master masterUrl text =
        (((splitlines text).map pyStrip).zip ((splitlines text).map pyStrip).tail).filterMap
          (fun ab => if isStreamInf ab.1 then some (mkVariant masterUrl ab.1 ab.2) else none)) ∧
    list_variants_from_master "https://x/m.m3u8".toList exC5Text =
      [⟨"https://x/v720.m3u8".toList, 2000000, some ("1280x720".toList), none⟩,
        ⟨"https://x/v1080.m3u8".toList, 5000000, some ("1920x1080".toList), none⟩,
        ⟨"https://x/v480.m3u8".toList, 800000, none, none⟩] := by
  refine ⟨fun masterUrl text => ?_, by decide⟩
  rw [list_variants_from_master, variantsGo_eq]

/-! ## C6: variant-playlist parsing -/

def firstUri (ls : List Str) : Option Str := ls.find? isUriLine

/-- Modelled from the spec: pair each `#EXTINF:` duration with the
following non-comment, non-blank line. -/
def specPairsC6 (url : Str) : List Str → List (ℚ × Str)
  | [] => []
  | ln :: rest =>
    (if startsWithStr ln "#EXTINF:".toList then
      match pyFloat (extInfDur ln), firstUri rest with
      | some d, some u => [(d, urljoinStr url u)]
      | _, _ => []
    else []) ++ specPairsC6 url rest

/-- Well-formedness of a playlist for the claim's pairing: no two
`#EXTINF:` lines without a URI line between them (`pending` records an
unconsumed `#EXTINF:`). -/
def sepOk (pending : Bool) : List Str → Bool
  | [] => true
  | ln :: rest =>
    if startsWithStr ln "#EXTINF:".toList then !pending && sepOk true rest
    else if isUriLine ln then sepOk false rest
    else sepOk pending rest

lemma sepOk_true_imp_false : ∀ lines : List Str,
    sepOk true lines = true → sepOk false lines = true
  | [] => fun _ => rfl
  | ln :: rest => by
    intro h
    rw [sepOk] at h ⊢
    by_cases h1 : startsWithStr ln "#EXTINF:".toList
    · rw [if_pos h1] at h
      simp at h
    · rw [if_neg h1] at h ⊢
      by_cases h2 : isUriLine ln
      · rw [if_pos h2] at h ⊢
        exact h
      · rw [if_neg h2] at h ⊢
        exact sepOk_true_imp_false rest h

lemma analyzeGoT_fst (url : Str) : ∀ (d : Option ℚ) (lines : List Str),
    (analyzeGoT url d lines).1 = ((analyzeGoT url d lines).2.map Prod.fst).sum
  | _, [] => by simp [analyzeGoT]
  | lastDur, ln :: rest => by
    rw [analyzeGoT]
    by_cases h1 : startsWithStr ln "#EXTINF:".toList
    · rw [if_pos h1]
      exact analyzeGoT_fst url _ rest
    · rw [if_neg h1]
      by_cases h2 : isUriLine ln
      · rw [if_pos h2]
        cases lastDur with
        | none => exact analyzeGoT_fst url none rest
        | some d =>
          have ih := analyzeGoT_fst url none rest
          simp only [consumeDur, List.map_cons, List.sum_cons]
          rw [ih]
      · rw [if_neg h2]
        exact analyzeGoT_fst url lastDur rest

lemma firstUri_cons_pos (ln : Str) (rest : List Str) (h : isUriLine ln = true) :
    firstUri (ln :: rest) = some ln := by
  rw [firstUri, List.find?_cons]
  simp [h]

lemma firstUri_cons_neg (ln : Str) (rest : List Str) (h : ¬ isUriLine ln = true) :
    firstUri (ln :: rest) = firstUri rest := by
  rw [firstUri, List.find?_cons, firstUri]
  simp only [Bool.not_eq_true] at h
  simp [h]

lemma analyze_spec_pairs (url : Str) : ∀ lines : List Str,
    (sepOk false lines = true → (analyzeGoT url none lines).2 = specPairsC6 url lines) ∧
    (∀ d : ℚ, sepOk true lines = true →
      (analyzeGoT url (some d) lines).2 =
        (match firstUri lines with
         | some u => [(d, urljoinStr url u)]
         | none => []) ++ specPairsC6 url lines)
  | [] => ⟨fun _ => rfl, fun d _ => rfl⟩
  | ln :: rest => by
    have ih := analyze_spec_pairs url rest
    by_cases h1 : startsWithStr ln "#EXTINF:".toList
    · constructor
      · intro hsep
        rw [sepOk, if_pos h1] at hsep
        simp only [Bool.not_false, Bool.true_and] at hsep
        rw [analyzeGoT, if_pos h1, specPairsC6, if_pos h1]
        cases hf : pyFloat (extInfDur ln) with
        | none =>
          rw [ih.1 (sepOk_true_imp_false rest hsep)]
          cases hfu : firstUri rest <;> simp
        | some d =>
          rw [ih.2 d hsep]
          cases hfu : firstUri rest <;> simp [hfu]
      · intro d hsep
        rw [sepOk, if_pos h1] at hsep
        simp at hsep
    · by_cases h2 : isUriLine ln
      · constructor
        · intro hsep
          rw [sepOk, if_neg h1, if_pos h2] at hsep
          rw [analyzeGoT, if_neg h1, if_pos h2, specPairsC6, if_neg h1]
          simp only [consumeDur]
          rw [ih.1 hsep]
          simp
        · intro d hsep
          rw [sepOk, if_neg h1, if_pos h2] at hsep
          rw [analyzeGoT, if_neg h1, if_pos h2, specPairsC6, if_neg h1,
            firstUri_cons_pos ln rest h2]
          simp only [consumeDur]
          rw [ih.1 hsep]
          simp
      · constructor
        · intro hsep
          rw [sepOk, if_neg h1, if_neg h2] at hsep
          rw [analyzeGoT, if_neg h1, if_neg h2, specPairsC6, if_neg h1]
          rw [ih.1 hsep]
          simp
        · intro d hsep
          rw [sepOk, if_neg h1, if_neg h2] at hsep
          rw [analyzeGoT, if_neg h1, if_neg h2, specPairsC6, if_neg h1,
            firstUri_cons_neg ln rest h2]
          rw [ih.2 d hsep]
          simp

def exC6Text : Str :=
  ("#EXTM3U\n#EXTINF:10,\nseg1.ts\n# comment\n#EXTINF:10,\n\nseg2.ts\n" ++
   "#EXTINF:10,\nseg3.ts\n#EXTINF:5,\nseg4.ts\n#EXT-X-ENDLIST").toList

/-- C6 fails as stated: with two consecutive `#EXTINF:` lines before one
URI line the code pairs only the later duration (the pending duration is
overwritten), while the claim pairs each duration with the following
non-comment non-blank line, which would also keep the first and sum to
30. -/
theorem C6_counterexample :
    (analyze_variant "https://x/v.m3u8".toList
        ("#EXTINF:10,\n#EXTINF:20,\ns.ts\n#EXT-X-ENDLIST".toList)).segments =
      [((20 : ℚ), "https://x/s.ts".toList)] ∧
    (analyze_variant "https://x/v.m3u8".toList
        ("#EXTINF:10,\n#EXTINF:20,\ns.ts\n#EXT-X-ENDLIST".toList)).total_seconds =
      some 20 ∧
    specPairsC6 "https://x/v.m3u8".toList
        ((splitlines ("#EXTINF:10,\n#EXTINF:20,\ns.ts\n#EXT-X-ENDLIST".toList)).map pyStrip) =
      [((10 : ℚ), "https://x/s.ts".toList), ((20 : ℚ), "https://x/s.ts".toList)] := by
  refine ⟨?_, ?_, ?_⟩ <;> with_unfolding_all rfl

/-- C6 amended: `analyze_variant` reports encrypted exactly when some
stripped line starts with `#EXT-X-KEY:`, VOD exactly when some stripped
line is `#EXT-X-ENDLIST`, and returns a total duration equal to the sum
of the segment durations when VOD and null otherwise; on playlists with
no two `#EXTINF:` lines lacking an intervening URI line, the segments
pair each `#EXTINF:` duration with the following non-comment non-blank
line resolved against the variant URL; durations [10,10,10,5] with
`#EXT-X-ENDLIST` yield isVod and totalSeconds 35. -/
theorem C6_analyze_variant :
    (∀ url text : Str,
      ((analyze_variant url text).encrypted = true ↔
        ∃ ln ∈ (splitlines text).map pyStrip,
          startsWithStr ln "#EXT-X-KEY:".toList = true) ∧
      ((analyze_variant url text).is_vod = true ↔
        "#EXT-X-ENDLIST".toList ∈ (splitlines text).map pyStrip) ∧
      ((analyze_variant url text).total_seconds =
        if (analyze_variant url text).is_vod then
          some (((analyze_variant url text).segments.map Prod.fst).sum)
        else none) ∧
      (sepOk false ((splitlines text).map pyStrip) = true →
        (analyze_variant url text).segments =
          specPairsC6 url ((splitlines text).map pyStrip))) ∧
    analyze_variant "https://x/v.m3u8".toList exC6Text =
      ⟨true, some 35, false,
        [((10 : ℚ), "https://x/seg1.ts".toList), ((10 : ℚ), "https://x/seg2.ts".toList),
          ((10 : ℚ), "https://x/seg3.ts".toList), ((5 : ℚ), "https://x/seg4.ts".toList)]⟩ := by
  refine ⟨fun url text => ⟨?_, ?_, ?_, ?_⟩, by with_unfolding_all rfl⟩
  · rw [analyze_variant]
    simp [List.any_eq_true]
  · rw [analyze_variant]
    simp [List.any_eq_true]
  · rw [analyze_variant]
    by_cases h : ((splitlines text).map pyStrip).any
        (fun ln => ln = "#EXT-X-ENDLIST".toList)
    · rw [if_pos h, if_pos h]
      exact congrArg some (analyzeGoT_fst url none _)
    · rw [if_neg h, if_neg h]
  · intro hsep
    rw [analyze_variant]
    exact (analyze_spec_pairs url _).1 hsep

/-! ## C2 and C3: candidate rows in `process_single_url` -/

/-- A candidate row (the dict built per variant in `process_single_url`),
restricted to the fields that drive disambiguation and ranking; the
formatted label strings are presentation only. -/
structure Row where
  entryId : Option Str
  flavorId : Option Str
  duration_seconds : Option ℚ
  playlist : Str
  sort_mbps : ℚ
deriving DecidableEq, Repr

/-- `dur_by_entry.setdefault(entryId, 0)` followed by
`dur_by_entry[entryId] = max(dur_by_entry[entryId], total)`. -/
def durUpdate : List (Str × ℚ) → Str → ℚ → List (Str × ℚ)
  | [], e, t => [(e, max 0 t)]
  | (k, v) :: rest, e, t =>
    if k = e then (k, max v t) :: rest else (k, v) :: durUpdate rest e t

/-- The `dur_by_entry` dict: one update per row whose `entryId` and
`total_seconds` are both truthy (non-None, non-empty, non-zero). -/
def dur_by_entry (rows : List Row) : List (Str × ℚ) :=
  rows.foldl (fun d r =>
    match r.entryId, r.duration_seconds with
    | some e, some t => if ¬ e.isEmpty ∧ t ≠ 0 then durUpdate d e t else d
    | _, _ => d) []

/-- Python `max(items, key=value)`: the first item with the maximal
value (a later item replaces only when strictly greater). -/
def maxItem : List (Str × ℚ) → Option (Str × ℚ)
  | [] => none
  | x :: rest => some (rest.foldl (fun acc y => if acc.2 < y.2 then y else acc) x)

def dictGetQ (d : List (Str × ℚ)) (k : Str) : Option ℚ :=
  (d.find? (fun kv => kv.1 = k)).map (fun kv => kv.2)

/-- The disambiguation block of `process_single_url`: when `dur_by_entry`
is non-empty, keep only rows whose `entryId` equals the best entry. -/
def disambiguate (rows : List Row) : List Row :=
  match maxItem (dur_by_entry rows) with
  | none => rows
  | some best => rows.filter (fun r => r.entryId = some best.1)

/-- The final ordering of `process_single_url`:
`rows.sort(key=lambda r: r["sort_mbps"], reverse=True)` — a stable sort,
descending by the numeric key. -/
def sortRows (rows : List Row) : List Row :=
  rows.mergeSort (fun a b => decide (b.sort_mbps ≤ a.sort_mbps))

lemma maxItem_foldl_mem (x : Str × ℚ) : ∀ rest : List (Str × ℚ),
    rest.foldl (fun acc y => if acc.2 < y.2 then y else acc) x = x ∨
      rest.foldl (fun acc y => if acc.2 < y.2 then y else acc) x ∈ rest
  | [] => Or.inl rfl
  | y :: rest => by
    by_cases h : x.2 < y.2
    · rw [List.foldl_cons, if_pos h]
      rcases maxItem_foldl_mem y rest with h2 | h2
      · refine Or.inr ?_
        rw [h2]
        exact List.mem_cons_self y rest
      · exact Or.inr (List.mem_cons_of_mem y h2)
    · rw [List.foldl_cons, if_neg h]
      rcases maxItem_foldl_mem x rest with h2 | h2
      · exact Or.inl h2
      · exact Or.inr (List.mem_cons_of_mem y h2)

lemma maxItem_foldl_ge (x : Str × ℚ) : ∀ rest : List (Str × ℚ),
    x.2 ≤ (rest.foldl (fun acc y => if acc.2 < y.2 then y else acc) x).2 ∧
      ∀ y ∈ rest, y.2 ≤ (rest.foldl (fun acc y => if acc.2 < y.2 then y else acc) x).2
  | [] => ⟨le_refl _, by simp⟩
  | y :: rest => by
    by_cases h : x.2 < y.2
    · rw [List.foldl_cons, if_pos h]
      have ih := maxItem_foldl_ge y rest
      refine ⟨le_of_lt (lt_of_lt_of_le h ih.1), ?_⟩
      intro z hz
      rcases List.mem_cons.mp hz with h2 | h2
      · rw [h2]
        exact ih.1
      · exact ih.2 z h2
    · rw [List.foldl_cons, if_neg h]
      have ih := maxItem_foldl_ge x rest
      refine ⟨ih.1, ?_⟩
      intro z hz
      rcases List.mem_cons.mp hz with h2 | h2
      · rw [h2]
        exact le_trans (le_of_not_lt h) ih.1
      · exact ih.2 z h2

lemma maxItem_spec (d : List (Str × ℚ)) (best : Str × ℚ)
    (h : maxItem d = some best) : best ∈ d ∧ ∀ y ∈ d, y.2 ≤ best.2 := by
  cases d with
  | nil => exact Option.noConfusion h
  | cons x rest =>
    rw [maxItem, Option.some.injEq] at h
    subst h
    constructor
    · rcases maxItem_foldl_mem x rest with h2 | h2
      · rw [h2]
        exact List.mem_cons_self x rest
      · exact List.mem_cons_of_mem x h2
    · intro y hy
      rcases List.mem_cons.mp hy with h2 | h2
      · rw [h2]
        exact (maxItem_foldl_ge x rest).1
      · exact (maxItem_foldl_ge x rest).2 y h2

def keysNodup (d : List (Str × ℚ)) : Prop := (d.map Prod.fst).Nodup

lemma durUpdate_keys (e : Str) (t : ℚ) : ∀ d : List (Str × ℚ),
    (durUpdate d e t).map Prod.fst =
      if e ∈ d.map Prod.fst then d.map Prod.fst else d.map Prod.fst ++ [e]
  | [] => by simp [durUpdate]
  | (k, v) :: rest => by
    rw [durUpdate]
    by_cases h : k = e
    · subst h
      simp
    · rw [if_neg h]
      simp only [List.map_cons, durUpdate_keys e t rest]
      by_cases h2 : e ∈ rest.map Prod.fst
      · have hm : e ∈ k :: rest.map Prod.fst := List.mem_cons_of_mem _ h2
        simp [h2, hm]
      · have : ¬ (e ∈ k :: rest.map Prod.fst) := by
          intro hc
          rcases List.mem_cons.mp hc with hc | hc
          · exact h hc.symm
          · exact h2 hc
        simp [h2, this]

lemma durUpdate_nodup (d : List (Str × ℚ)) (e : Str) (t : ℚ)
    (h : keysNodup d) : keysNodup (durUpdate d e t) := by
  rw [keysNodup, durUpdate_keys]
  by_cases h2 : e ∈ d.map Prod.fst
  · rwa [if_pos h2]
  · rw [if_neg h2]
    rw [keysNodup] at h
    refine List.Nodup.append h (List.nodup_singleton e) ?_
    intro a ha hae
    rw [List.mem_singleton] at hae
    exact h2 (hae ▸ ha)

lemma dur_by_entry_nodup (rows : List Row) : keysNodup (dur_by_entry rows) := by
  rw [dur_by_entry]
  generalize hd : ([] : List (Str × ℚ)) = d0
  have h0 : keysNodup d0 := by rw [← hd]; exact List.nodup_nil
  clear hd
  induction rows generalizing d0 with
  | nil => exact h0
  | cons r rest ih =>
    rw [List.foldl_cons]
    apply ih
    cases hr : r.entryId with
    | none => simpa [hr] using h0
    | some e =>
      cases ht : r.duration_seconds with
      | none => simpa [hr, ht] using h0
      | some t =>
        simp only [hr, ht]
        by_cases hc : ¬ e.isEmpty ∧ t ≠ 0
        · rw [if_pos hc]
          exact durUpdate_nodup d0 e t h0
        · rwa [if_neg hc]

lemma dictGetQ_of_mem (d : List (Str × ℚ)) (x : Str × ℚ)
    (hnd : keysNodup d) (hx : x ∈ d) : dictGetQ d x.1 = some x.2 := by
  induction d with
  | nil => exact absurd hx (List.not_mem_nil x)
  | cons y rest ih =>
    rw [keysNodup, List.map_cons, List.nodup_cons] at hnd
    rcases List.mem_cons.mp hx with h | h
    · subst h
      rw [dictGetQ, List.find?_cons]
      simp
    · have hne : y.1 ≠ x.1 := by
        intro hc
        exact hnd.1 (hc ▸ List.mem_map_of_mem Prod.fst h)
      rw [dictGetQ, List.find?_cons]
      have : (decide (y.1 = x.1)) = false := by simpa using hne
      rw [this]
      exact ih hnd.2 h

def exRowX1 : Row :=
  ⟨some "0_x".toList, some "0_f1".toList, some 600, "https://x/f1.m3u8".toList, 5⟩

def exRowX2 : Row :=
  ⟨some "0_x".toList, some "0_f2".toList, some 600, "https://x/f2.m3u8".toList, 2⟩

def exRowY : Row :=
  ⟨some "0_y".toList, some "0_g1".toList, some 30, "https://x/g1.m3u8".toList, 8⟩

def exC2Rows : List Row := [exRowX1, exRowY, exRowX2]

/-- C2: entry disambiguation.  When some row contributed a truthy entry
id and VOD duration, the rows kept are exactly those of the first entry
attaining the maximal recorded duration: every retained row's group
maximum equals the global maximum; on rows from entries X (600 s) and Y
(30 s) only X's rows remain. -/
theorem C2_entry_disambiguation (rows : List Row)
    (hne : dur_by_entry rows ≠ []) :
    (∀ r ∈ disambiguate rows, ∃ e t, r.entryId = some e ∧
      dictGetQ (dur_by_entry rows) e = some t ∧
      ∀ y ∈ dur_by_entry rows, y.2 ≤ t) ∧
    (∃ best, maxItem (dur_by_entry rows) = some best ∧
      disambiguate rows = rows.filter (fun r => r.entryId = some best.1)) ∧
    disambiguate exC2Rows = [exRowX1, exRowX2] := by
  have hbest : ∃ best, maxItem (dur_by_entry rows) = some best := by
    cases hd : dur_by_entry rows with
    | nil => exact absurd hd hne
    | cons x rest => exact ⟨_, rfl⟩
  obtain ⟨best, hb⟩ := hbest
  have hspec := maxItem_spec _ _ hb
  refine ⟨?_, ⟨best, hb, by rw [disambiguate, hb]⟩, by with_unfolding_all rfl⟩
  intro r hr
  rw [disambiguate, hb] at hr
  have hid : r.entryId = some best.1 := by simpa using (List.mem_filter.mp hr).2
  exact ⟨best.1, best.2, hid,
    dictGetQ_of_mem _ _ (dur_by_entry_nodup rows) hspec.1, hspec.2⟩

theorem C2_entry_disambiguation_witness :
    disambiguate exC2Rows = [exRowX1, exRowX2] :=
  (C2_entry_disambiguation exC2Rows (by with_unfolding_all decide)).2.2

def exRow5A : Row := ⟨none, none, none, "https://x/a.m3u8".toList, 5⟩

def exRow2B : Row := ⟨none, none, none, "https://x/b.m3u8".toList, 2⟩

def exRow5C : Row := ⟨none, none, none, "https://x/c.m3u8".toList, 5⟩

/-- C3: the final ordering is a permutation of the rows, pairwise
descending by `sort_mbps`, and stable: for every key value the sublist of
rows carrying that key is unchanged; concretely, keys [5, 2, 5] sort to
the first 5, then the second 5, then the 2. -/
theorem C3_stable_descending_sort :
    (∀ rows : List Row, (sortRows rows).Perm rows) ∧
    (∀ rows : List Row,
      (sortRows rows).Pairwise (fun a b => b.sort_mbps ≤ a.sort_mbps)) ∧
    (∀ (rows : List Row) (k : ℚ),
      (sortRows rows).filter (fun r => r.sort_mbps = k) =
        rows.filter (fun r => r.sort_mbps = k)) ∧
    sortRows [exRow5A, exRow2B, exRow5C] = [exRow5A, exRow5C, exRow2B] := by
  have htrans : ∀ a b c : Row, decide (b.sort_mbps ≤ a.sort_mbps) = true →
      decide (c.sort_mbps ≤ b.sort_mbps) = true →
      decide (c.sort_mbps ≤ a.sort_mbps) = true := by
    intro a b c h1 h2
    simp only [decide_eq_true_eq] at h1 h2 ⊢
    exact le_trans h2 h1
  have htotal : ∀ a b : Row, (decide (b.sort_mbps ≤ a.sort_mbps) ||
      decide (a.sort_mbps ≤ b.sort_mbps)) = true := by
    intro a b
    simp only [Bool.or_eq_true, decide_eq_true_eq]
    exact le_total _ _
  refine ⟨fun rows => List.mergeSort_perm rows _, fun rows => ?_, fun rows k => ?_,
    by with_unfolding_all rfl⟩
  · have h := List.sorted_mergeSort htrans htotal rows
    exact h.imp (fun hab => by simpa using hab)
  · exact filter_mergeSort _ htrans htotal _ rows (by
      intro a b ha hb
      simp only [decide_eq_true_eq] at ha hb ⊢
      rw [ha, hb])

/-! ## C9: bitrate estimation -/

/-- Whether Python `if size:` accepts a `head_size` result: a reported
size that is neither `None` nor 0. -/
def usableSize : Option Nat → Bool
  | some sz => sz ≠ 0
  | none => false

/-- The accumulation loop of `estimate_bitrate_mbps`: bytes and seconds
are both added only for samples with a usable size.  `head_size` performs
the metadata-only HEAD request; it is abstracted as the `sizeOf`
oracle. -/
def sampleTotals (sizeOf : Str → Option Nat) (samples : List (ℚ × Str)) : Nat × ℚ :=
  samples.foldl (fun acc s =>
    if usableSize (sizeOf s.2) then (acc.1 + (sizeOf s.2).getD 0, acc.2 + s.1)
    else acc) (0, 0)

/-- `estimate_bitrate_mbps` from `app.py`. -/
def estimate_bitrate_mbps (sizeOf : Str → Option Nat)
    (segments : List (ℚ × Str)) (sample_n : Nat) : Option ℚ :=
  let samples := segments.take sample_n
  if samples = [] then none
  else
    let t := sampleTotals sizeOf samples
    if t.2 = 0 ∨ t.1 = 0 then none
    else some (((t.1 : ℚ) * 8 / t.2) / 1000000)

lemma sampleTotals_foldl (sizeOf : Str → Option Nat) :
    ∀ (samples : List (ℚ × Str)) (acc : Nat × ℚ),
    samples.foldl (fun acc s =>
      if usableSize (sizeOf s.2) then (acc.1 + (sizeOf s.2).getD 0, acc.2 + s.1)
      else acc) acc =
    (acc.1 + (((samples.filter (fun s => usableSize (sizeOf s.2))).map
        (fun s => (sizeOf s.2).getD 0)).sum),
      acc.2 + (((samples.filter (fun s => usableSize (sizeOf s.2))).map
        Prod.fst).sum))
  | [], acc => by simp
  | s :: rest, acc => by
    rw [List.foldl_cons, sampleTotals_foldl sizeOf rest, List.filter_cons]
    by_cases h : usableSize (sizeOf s.2)
    · rw [if_pos h, if_pos (by simpa using h)]
      simp only [List.map_cons, List.sum_cons]
      rw [Prod.mk.injEq]
      exact ⟨by omega, by ring⟩
    · rw [if_neg h, if_neg (by simpa using h)]

lemma sampleTotals_eq (sizeOf : Str → Option Nat) (samples : List (ℚ × Str)) :
    sampleTotals sizeOf samples =
      ((((samples.filter (fun s => usableSize (sizeOf s.2))).map
          (fun s => (sizeOf s.2).getD 0)).sum),
        (((samples.filter (fun s => usableSize (sizeOf s.2))).map
          Prod.fst).sum)) := by
  rw [sampleTotals, sampleTotals_foldl]
  simp

lemma qsum_of_nonneg : ∀ l : List ℚ, (∀ x ∈ l, 0 ≤ x) →
    0 ≤ l.sum ∧ (l.sum = 0 ↔ ∀ x ∈ l, x = 0)
  | [], _ => by simp
  | x :: rest, h => by
    have hx : 0 ≤ x := h x (List.mem_cons_self x rest)
    have ih := qsum_of_nonneg rest (fun y hy => h y (List.mem_cons_of_mem x hy))
    rw [List.sum_cons]
    constructor
    · linarith [ih.1]
    · constructor
      · intro h0 y hy
        rcases List.mem_cons.mp hy with hy | hy
        · subst hy
          linarith [ih.1]
        · exact (ih.2.mp (by linarith [ih.1])) y hy
      · intro hall
        have hx0 : x = 0 := hall x (List.mem_cons_self x rest)
        have hr : rest.sum = 0 :=
          ih.2.mpr (fun y hy => hall y (List.mem_cons_of_mem x hy))
        rw [hx0, hr, zero_add]

lemma natsum_pos_elts : ∀ l : List Nat, (∀ x ∈ l, x ≠ 0) →
    (l.sum = 0 ↔ l = [])
  | [], _ => by simp
  | x :: rest, h => by
    have hx := h x (List.mem_cons_self x rest)
    simp only [List.sum_cons]
    constructor
    · intro h0
      exact absurd (by omega : x = 0) hx
    · intro h0
      exact List.noConfusion h0

/-- In `process_single_url`:
`declared_mbps = (v.bandwidth / 1e6) if v.bandwidth else None` and
`est_mbps = declared_mbps or estimate_bitrate_mbps(...)` (Python `or` on
an optional float, falling through on `None` and on 0.0). -/
def declaredMbps (bandwidth : Int) : Option ℚ :=
  if bandwidth ≠ 0 then some ((bandwidth : ℚ) / 1000000) else none

def estMbpsRow (bandwidth : Int) (est : Option ℚ) : Option ℚ :=
  match declaredMbps bandwidth with
  | some d => if d = 0 then est else some d
  | none => est

/-- C9 counterexample: with a declared `#EXTINF` duration of −5 the
estimator returns a (negative) value although no sample produced both a
usable size and a positive duration; and with durations 5 and −5 it
returns null although the first sample produced both. -/
theorem C9_counterexample :
    (estimate_bitrate_mbps (fun _ => some 100)
      [((-5 : ℚ), "https://x/u.ts".toList)] 3).isSome = true ∧
    estimate_bitrate_mbps (fun _ => some 100)
      [((5 : ℚ), "https://x/u.ts".toList), ((-5 : ℚ), "https://x/v.ts".toList)] 3 =
      none := by
  constructor <;> with_unfolding_all rfl

/-- C9 amended: `estimate_bitrate_mbps` samples at most the first
`sample_n` segments, sums byte sizes and paired durations only over
samples with a usable reported size, and returns
`(totalBytes*8/totalSeconds)/1e6`; it returns null exactly when no
segment was sampled or the accumulated byte or duration total is zero —
which, when the sampled durations are nonnegative, is exactly when no
sample produced both a usable size and a positive duration.  A non-zero
declared bandwidth always takes precedence over the estimate. -/
theorem C9_estimate_bitrate_mbps (sizeOf : Str → Option Nat)
    (segments : List (ℚ × Str)) (sample_n : Nat) :
    (estimate_bitrate_mbps sizeOf segments sample_n = none ↔
      segments.take sample_n = [] ∨
      (sampleTotals sizeOf (segments.take sample_n)).1 = 0 ∨
      (sampleTotals sizeOf (segments.take sample_n)).2 = 0) ∧
    (∀ q, estimate_bitrate_mbps sizeOf segments sample_n = some q →
      q = (((sampleTotals sizeOf (segments.take sample_n)).1 : ℚ) * 8 /
        (sampleTotals sizeOf (segments.take sample_n)).2) / 1000000) ∧
    ((∀ s ∈ segments.take sample_n, 0 ≤ s.1) →
      (estimate_bitrate_mbps sizeOf segments sample_n = none ↔
        ¬ ∃ s ∈ segments.take sample_n,
          usableSize (sizeOf s.2) = true ∧ 0 < s.1)) ∧
    (∀ b : Int, b ≠ 0 →
      ∀ est : Option ℚ, estMbpsRow b est = some ((b : ℚ) / 1000000)) ∧
    (∀ est : Option ℚ, estMbpsRow 0 est = est) := by
  refine ⟨?_, ?_, ?_, ?_, fun est => rfl⟩
  · rw [estimate_bitrate_mbps]
    by_cases h : segments.take sample_n = []
    · simp [h]
    · rw [if_neg h]
      by_cases h2 : (sampleTotals sizeOf (segments.take sample_n)).2 = 0 ∨
          (sampleTotals sizeOf (segments.take sample_n)).1 = 0
      · simp [h2, h]
        tauto
      · simp [h2, h]
        tauto
  · intro q hq
    rw [estimate_bitrate_mbps] at hq
    by_cases h : segments.take sample_n = []
    · rw [if_pos h] at hq
      exact Option.noConfusion hq
    · rw [if_neg h] at hq
      by_cases h2 : (sampleTotals sizeOf (segments.take sample_n)).2 = 0 ∨
          (sampleTotals sizeOf (segments.take sample_n)).1 = 0
      · rw [if_pos h2] at hq
        exact Option.noConfusion hq
      · rw [if_neg h2] at hq
        exact (Option.some.injEq _ _ ▸ hq).symm
  · intro hnn
    rw [estimate_bitrate_mbps]
    set samples := segments.take sample_n with hs
    by_cases h : samples = []
    · rw [if_pos h]
      simp only [true_iff]
      rintro ⟨s, hsmem, _, _⟩
      rw [h] at hsmem
      exact absurd hsmem (List.not_mem_nil s)
    · rw [if_neg h, sampleTotals_eq]
      have husable : ∀ x ∈ (samples.filter
          (fun s => usableSize (sizeOf s.2))).map (fun s => (sizeOf s.2).getD 0),
          x ≠ 0 := by
        intro x hx
        rcases List.mem_map.mp hx with ⟨s, hsm, hval⟩
        have hu := List.of_mem_filter hsm
        cases hso : sizeOf s.2 with
        | none =>
          rw [hso] at hu
          simp [usableSize] at hu
        | some sz =>
          rw [hso] at hu
          rw [← hval, hso]
          simp only [usableSize] at hu
          simpa using hu
      have hnn2 : ∀ x ∈ (samples.filter
          (fun s => usableSize (sizeOf s.2))).map Prod.fst, 0 ≤ x := by
        intro x hx
        rcases List.mem_map.mp hx with ⟨s, hsm, hval⟩
        exact hval ▸ hnn s (List.mem_of_mem_filter hsm)
      by_cases hc : (((samples.filter (fun s => usableSize (sizeOf s.2))).map
            Prod.fst).sum = 0 ∨
          ((samples.filter (fun s => usableSize (sizeOf s.2))).map
            (fun s => (sizeOf s.2).getD 0)).sum = 0)
      · rw [if_pos hc]
        simp only [true_iff]
        rintro ⟨s, hsmem, hu, hpos⟩
        have hsF : s ∈ samples.filter (fun s => usableSize (sizeOf s.2)) :=
          List.mem_filter.mpr ⟨hsmem, hu⟩
        rcases hc with hc | hc
        · have h0 : s.1 = 0 := (qsum_of_nonneg _ hnn2).2.mp hc s.1
            (List.mem_map_of_mem Prod.fst hsF)
          linarith
        · rw [natsum_pos_elts _ husable, List.map_eq_nil_iff] at hc
          rw [hc] at hsF
          exact absurd hsF (List.not_mem_nil s)
      · rw [if_neg hc]
        push_neg at hc
        have hsome : ∃ s ∈ samples.filter (fun s => usableSize (sizeOf s.2)),
            s.1 ≠ 0 := by
          by_contra hall
          push_neg at hall
          refine hc.1 ((qsum_of_nonneg _ hnn2).2.mpr ?_)
          intro x hx
          rcases List.mem_map.mp hx with ⟨s, hsm, hval⟩
          exact hval ▸ hall s hsm
        have hex : ∃ s ∈ samples, usableSize (sizeOf s.2) = true ∧ 0 < s.1 := by
          rcases hsome with ⟨s, hsF, hne⟩
          have hmem := List.mem_of_mem_filter hsF
          have hu := List.of_mem_filter hsF
          exact ⟨s, hmem, hu, lt_of_le_of_ne (hnn s hmem) (Ne.symm hne)⟩
        constructor
        · intro habs
          exact Option.noConfusion habs
        · intro hn
          exact absurd hex hn
  · intro b hb est
    have hd : ((b : ℚ) / 1000000) ≠ 0 :=
      div_ne_zero (Int.cast_ne_zero.mpr hb) (by norm_num)
    rw [estMbpsRow, declaredMbps, if_pos hb]
    simp [hd]

/-! ## C4: URL cleaning (`clean_m3u8_url`) -/

def hexVal (c : Char) : Option Nat :=
  if '0' ≤ c ∧ c ≤ '9' then some (c.toNat - 48)
  else if 'a' ≤ c ∧ c ≤ 'f' then some (c.toNat - 87)
  else if 'A' ≤ c ∧ c ≤ 'F' then some (c.toNat - 55)
  else none

/-- Python `urllib.parse.unquote`: each valid `%XX` escape becomes the
byte it denotes (mapped through `Char.ofNat`, exact for ASCII; the UTF-8
regrouping of consecutive high bytes is not modelled); an invalid escape
is kept, its following characters rescanned. -/
def unquote : Str → Str
  | [] => []
  | c :: rest =>
    if c = '%' then
      match rest with
      | h1 :: h2 :: rest2 =>
        match hexVal h1, hexVal h2 with
        | some v1, some v2 => Char.ofNat (16 * v1 + v2) :: unquote rest2
        | _, _ => '%' :: unquote (h1 :: h2 :: rest2)
      | _ => '%' :: rest
    else c :: unquote rest
termination_by s => s.length
decreasing_by all_goals simp_arith

def unquote_plus (s : Str) : Str :=
  unquote (s.map (fun c => if c = '+' then ' ' else c))

/-- `urllib.parse.parse_qsl` (separator `&`, non-strict). -/
def parse_qsl (keepBlank : Bool) (qs : Str) : List (Str × Str) :=
  (splitOnChar '&' qs).filterMap (fun nv =>
    if nv = [] then none
    else if nv.contains '=' then
      let n := nv.takeWhile (fun c => c ≠ '=')
      let v := (nv.dropWhile (fun c => c ≠ '=')).drop 1
      if v ≠ [] ∨ keepBlank then some (unquote_plus n, unquote_plus v) else none
    else if keepBlank then some (unquote_plus nv, []) else none)

def dictAddVal : List (Str × List Str) → Str → Str → List (Str × List Str)
  | [], k, v => [(k, [v])]
  | (k0, vs) :: rest, k, v =>
    if k0 = k then (k0, vs ++ [v]) :: rest else (k0, vs) :: dictAddVal rest k v

/-- `urllib.parse.parse_qs`: the pairs grouped into an insertion-ordered
dict of value lists. -/
def parse_qs (keepBlank : Bool) (qs : Str) : List (Str × List Str) :=
  (parse_qsl keepBlank qs).foldl (fun d kv => dictAddVal d kv.1 kv.2) []

def alwaysSafe (c : Char) : Bool :=
  c.isAlpha || c.isDigit || c = '_' || c = '.' || c = '-' || c = '~'

def hexDigitU (n : Nat) : Char :=
  if n < 10 then Char.ofNat (48 + n) else Char.ofNat (55 + n)

/-- `urllib.parse.quote_plus` with empty `safe`, for one character (the
multi-byte UTF-8 expansion of non-ASCII characters is not modelled). -/
def quotePlusChar (c : Char) : Str :=
  if c = ' ' then ['+']
  else if alwaysSafe c then [c]
  else ['%', hexDigitU (c.toNat / 16 % 16), hexDigitU (c.toNat % 16)]

def quote_plus (s : Str) : Str := s.foldr (fun c acc => quotePlusChar c ++ acc) []

/-- `urllib.parse.urlencode` with `doseq=True` over a parsed-qs dict. -/
def urlencode (d : List (Str × List Str)) : Str :=
  List.intercalate ['&'] (d.foldr (fun kv acc =>
    kv.2.map (fun v => quote_plus kv.1 ++ '=' :: quote_plus v) ++ acc) [])

def b64Val (c : Char) : Option Nat :=
  if 'A' ≤ c ∧ c ≤ 'Z' then some (c.toNat - 65)
  else if 'a' ≤ c ∧ c ≤ 'z' then some (c.toNat - 71)
  else if '0' ≤ c ∧ c ≤ '9' then some (c.toNat + 4)
  else if c = '+' then some 62
  else if c = '/' then some 63
  else none

def b64Core : List Nat → List Nat
  | a :: b :: c :: d :: rest =>
    (a * 4 + b / 16) :: ((b % 16) * 16 + c / 4) :: ((c % 4) * 64 + d) :: b64Core rest
  | [a, b] => [a * 4 + b / 16]
  | [a, b, c] => [a * 4 + b / 16, (b % 16) * 16 + c / 4]
  | _ => []
termination_by l => l.length
decreasing_by all_goals simp_arith

/-- `base64.b64decode(value, validate=True)`: every character must be in
the alphabet, padding only as a suffix of at most two `=`, total length a
multiple of four. -/
def b64decodeV (s : Str) : Option (List Nat) :=
  let core := s.takeWhile (fun c => c ≠ '=')
  let pad := s.drop core.length
  if pad.all (fun c => c = '=') ∧ pad.length ≤ 2 ∧
      (core.length + pad.length) % 4 = 0 ∧ core.all (fun c => (b64Val c).isSome) then
    some (b64Core (core.filterMap b64Val))
  else none

/-- `bytes.decode("utf-8", errors="ignore")` restricted to valid 1-3 byte
sequences; an invalid lead or continuation byte is skipped (the exact
resynchronisation of CPython on malformed input is not modelled). -/
def utf8Decode : List Nat → Str
  | [] => []
  | b :: rest =>
    if b < 128 then Char.ofNat b :: utf8Decode rest
    else if 192 ≤ b ∧ b < 224 then
      match rest with
      | b2 :: rest2 =>
        if 128 ≤ b2 ∧ b2 < 192 then
          Char.ofNat ((b - 192) * 64 + (b2 - 128)) :: utf8Decode rest2
        else utf8Decode (b2 :: rest2)
      | [] => []
    else if 224 ≤ b ∧ b < 240 then
      match rest with
      | b2 :: b3 :: rest2 =>
        if (128 ≤ b2 ∧ b2 < 192) ∧ (128 ≤ b3 ∧ b3 < 192) then
          Char.ofNat ((b - 224) * 4096 + (b2 - 128) * 64 + (b3 - 128)) :: utf8Decode rest2
        else utf8Decode (b2 :: b3 :: rest2)
      | _ => []
    else utf8Decode rest
termination_by l => l.length
decreasing_by all_goals simp_arith

/-- The base64 probe of `decode_url_fragments`: pad to a multiple of 4,
decode with validation, decode as UTF-8 ignoring errors, and accept only
a result starting with `http://` or `https://`. -/
def tryB64 (value : Str) : Option Str :=
  let missing := value.length % 4
  let padded := if missing ≠ 0 then value ++ List.replicate (4 - missing) '=' else value
  match b64decodeV padded with
  | some bytes =>
    let dv := utf8Decode bytes
    if startsWithStr dv "http://".toList || startsWithStr dv "https://".toList then
      some dv
    else none
  | none => none

def b64Keys : List Str :=
  ["url", "stream", "m3u8", "manifest", "playlist"].map String.toList

/-- The key loop of `decode_url_fragments`: the first listed key whose
first value base64-decodes to an http(s) URL wins; a failed or non-URL
decode falls through to the next key. -/
def b64Lookup (qs : List (Str × List Str)) : List Str → Option Str
  | [] => none
  | k :: ks =>
    match qs.find? (fun kv => kv.1 = k) with
    | some kv =>
      match kv.2.head? with
      | some v =>
        match tryB64 v with
        | some dv => some dv
        | none => b64Lookup qs ks
      | none => b64Lookup qs ks
    | none => b64Lookup qs ks

def spamParams : List Str :=
  ["utm_source", "utm_medium", "utm_campaign", "utm_term", "utm_content",
   "fbclid", "gclid", "msclkid", "_ga", "_gid", "mc_cid", "mc_eid",
   "ref", "source", "campaign", "tracker", "tracking"].map String.toList

/-- `decode_url_fragments` from `m3u8_sniffer_utils.py`. -/
def decode_url_fragments (url : Str) : Str :=
  if url = [] then url
  else
    let decoded := unquote url
    match b64Lookup (parse_qs false (urlparseStr [] decoded).query) b64Keys with
    | some dv => dv
    | none => decoded

/-- `strip_tracking_params` from `m3u8_sniffer_utils.py`. -/
def strip_tracking_params (url : Str) : Str :=
  if url = [] then url
  else
    let parsed := urlparseStr [] url
    let cleaned := (parse_qs true parsed.query).filter
      (fun kv => lowerStr kv.1 ∉ spamParams)
    urlunparseStr ⟨parsed.scheme, parsed.netloc, parsed.path, parsed.params,
      urlencode cleaned, parsed.fragment⟩

/-- `clean_m3u8_url` from `m3u8_sniffer_utils.py`. -/
def clean_m3u8_url (url : Str) : Str :=
  if url = [] then url
  else strip_tracking_params (decode_url_fragments url)

/-- C4 counterexample: percent-decoding is applied once per call, so the
doubly-encoded URL `https://x/a%2520b.m3u8` cleans to
`https://x/a%20b.m3u8`, which cleans further: `clean` is not
idempotent. -/
theorem C4_counterexample :
    clean_m3u8_url ("https://x/a%2520b.m3u8".toList) = "https://x/a%20b.m3u8".toList ∧
    clean_m3u8_url ("https://x/a%20b.m3u8".toList) = "https://x/a b.m3u8".toList ∧
    clean_m3u8_url (clean_m3u8_url ("https://x/a%2520b.m3u8".toList)) ≠
      clean_m3u8_url ("https://x/a%2520b.m3u8".toList) := by
  refine ⟨?_, ?_, ?_⟩ <;> with_unfolding_all decide

lemma ne_true_of_eq_false {b : Bool} (h : b = false) : ¬ b = true := by
  rw [h]
  exact Bool.false_ne_true

lemma unquote_of_no_percent : ∀ s : Str, (∀ c ∈ s, c ≠ '%') → unquote s = s
  | [], _ => by rw [unquote.eq_def]
  | c :: rest, h => by
    have hc : ¬ c = '%' := h c (List.mem_cons_self c rest)
    rw [unquote.eq_def]
    simp only []
    rw [if_neg hc,
      unquote_of_no_percent rest (fun x hx => h x (List.mem_cons_of_mem c hx))]

lemma contains_eq_false_of (l : Str) (c : Char) (h : ∀ x ∈ l, x ≠ c) :
    l.contains c = false := by
  by_contra hc
  rw [Bool.not_eq_false] at hc
  exact h c (List.elem_iff.mp hc) rfl

lemma schemeChar_ne (c : Char) (h : schemeChar c = true) :
    c ≠ ':' ∧ c ≠ '%' ∧ c ≠ '/' ∧ c ≠ '?' ∧ c ≠ '#' ∧ c ≠ ';' := by
  refine ⟨?_, ?_, ?_, ?_, ?_, ?_⟩ <;> intro hc <;> rw [hc] at h <;>
    exact absurd h (by decide)

lemma findIdx_colon_aux : ∀ (scheme : Str) (rest : Str) (i : Nat),
    (∀ c ∈ scheme, c ≠ ':') →
    List.findIdx? (fun c => c = ':') (scheme ++ ':' :: rest) i =
      some (i + scheme.length)
  | [], rest, i, _ => by
    rw [List.nil_append, List.findIdx?_cons, if_pos (by simp)]
    simp
  | c :: sch, rest, i, h => by
    rw [List.cons_append, List.findIdx?_cons,
      if_neg (by simpa using h c (List.mem_cons_self c sch)),
      findIdx_colon_aux sch rest (i + 1)
        (fun x hx => h x (List.mem_cons_of_mem c hx))]
    congr 1
    simp
    omega

lemma takeWhile_append_all (p : Char → Bool) : ∀ (l1 l2 : Str),
    (∀ c ∈ l1, p c = true) → (∀ c, l2.head? = some c → p c = false) →
    (l1 ++ l2).takeWhile p = l1 ∧ (l1 ++ l2).dropWhile p = l2
  | [], l2, _, h2 => by
    rw [List.nil_append]
    cases l2 with
    | nil => simp
    | cons c rest =>
      have hpc : p c = false := h2 c rfl
      rw [List.takeWhile_cons, List.dropWhile_cons, if_neg (by simp [hpc]),
        if_neg (by simp [hpc])]
      exact ⟨rfl, rfl⟩
  | a :: l1, l2, h1, h2 => by
    have hpa : p a = true := h1 a (List.mem_cons_self a l1)
    have ih := takeWhile_append_all p l1 l2
      (fun c hc => h1 c (List.mem_cons_of_mem a hc)) h2
    rw [List.cons_append, List.takeWhile_cons, List.dropWhile_cons,
      if_pos (by simp [hpa]), if_pos (by simp [hpa]), ih.1, ih.2]
    exact ⟨rfl, rfl⟩

lemma splitScheme_eq (dflt : Str) (u : Str) (i : Nat)
    (hf : u.findIdx? (fun c => c = ':') = some i)
    (hc : 0 < i ∧ headAlpha u = true ∧ (u.take i).all schemeChar = true) :
    splitScheme dflt u = (lowerStr (u.take i), u.drop (i + 1)) := by
  unfold splitScheme
  rw [hf]
  exact if_pos hc

lemma splitParams_no_semicolon (p : Str) (h : ∀ c ∈ p, c ≠ ';') :
    splitParams p = (p, []) := by
  rw [splitParams]
  have hpc : p.contains ';' = false := contains_eq_false_of p ';' h
  by_cases hc : p.contains '/' = true
  · rw [if_pos hc]
    have hseg : ((p.reverse.takeWhile (fun c => c ≠ '/')).reverse).contains ';' = false := by
      apply contains_eq_false_of
      intro x hx
      have hx2 : x ∈ p.reverse.takeWhile (fun c => c ≠ '/') :=
        List.mem_reverse.mp hx
      have hx3 : x ∈ p.reverse := (List.takeWhile_sublist _).mem hx2
      exact h x (List.mem_reverse.mp hx3)
    rw [if_neg (ne_true_of_eq_false hseg)]
  · rw [if_neg hc, if_neg (ne_true_of_eq_false hpc)]

lemma startsWithStr_nil (s : Str) : startsWithStr s [] = true := by
  cases s <;> rfl

lemma startsWith_slashslash (x : Str) :
    startsWithStr ('/' :: '/' :: x) "//".toList = true := by
  have h : "//".toList = ['/', '/'] := by decide
  rw [h]
  simp [startsWithStr, startsWithStr_nil]

lemma netlocDelim_false_ne (c : Char) (h : netlocDelim c = false) :
    c ≠ '/' ∧ c ≠ '?' ∧ c ≠ '#' := by
  refine ⟨?_, ?_, ?_⟩ <;> intro hc <;> rw [hc] at h <;> exact absurd h (by decide)

/-- Parsing a canonical `scheme://netloc/path` URL containing no escape,
query, fragment or parameter delimiter recovers exactly its parts. -/
lemma urlparse_canonical (scheme netloc path : Str)
    (h1 : scheme ≠ []) (h2 : headAlpha scheme = true)
    (h3 : scheme.all schemeChar = true) (h4 : lowerStr scheme = scheme)
    (h6 : ∀ c ∈ netloc, netlocDelim c = false)
    (h7 : path = [] ∨ ∃ p', path = '/' :: p')
    (h8 : ∀ c ∈ path, c ≠ '%' ∧ c ≠ '?' ∧ c ≠ '#' ∧ c ≠ ';') :
    urlparseStr [] (scheme ++ ':' :: '/' :: '/' :: (netloc ++ path)) =
      ⟨scheme, netloc, path, [], [], []⟩ := by
  have hall : ∀ c ∈ scheme, schemeChar c = true := List.all_eq_true.mp h3
  have hfind : (scheme ++ ':' :: '/' :: '/' :: (netloc ++ path)).findIdx?
      (fun c => c = ':') = some scheme.length := by
    have := findIdx_colon_aux scheme ('/' :: '/' :: (netloc ++ path)) 0
      (fun c hc => (schemeChar_ne c (hall c hc)).1)
    simpa using this
  have htake : (scheme ++ ':' :: '/' :: '/' :: (netloc ++ path)).take scheme.length =
      scheme := List.take_left scheme _
  have hdrop : (scheme ++ ':' :: '/' :: '/' :: (netloc ++ path)).drop
      (scheme.length + 1) = '/' :: '/' :: (netloc ++ path) := by
    have heq : scheme ++ ':' :: '/' :: '/' :: (netloc ++ path) =
        (scheme ++ [':']) ++ '/' :: '/' :: (netloc ++ path) := by simp
    have hlen : scheme.length + 1 = (scheme ++ [':']).length := by simp
    rw [heq, hlen, List.drop_left]
  have hhead : headAlpha (scheme ++ ':' :: '/' :: '/' :: (netloc ++ path)) = true := by
    cases scheme with
    | nil => exact absurd rfl h1
    | cons c s => exact h2
  have hnet : splitNetloc (netloc ++ path) = (netloc, path) := by
    rw [splitNetloc]
    have hp : ∀ c ∈ netloc, (!netlocDelim c) = true := by
      intro c hc
      simp [h6 c hc]
    have hh : ∀ c, path.head? = some c → (!netlocDelim c) = false := by
      intro c hc
      rcases h7 with h7 | ⟨p', h7⟩
      · rw [h7] at hc
        exact Option.noConfusion hc
      · rw [h7, List.head?_cons, Option.some.injEq] at hc
        subst hc
        decide
    have := takeWhile_append_all (fun c => !netlocDelim c) netloc path hp hh
    rw [this.1, this.2]
  have hsplit : urlsplitStr [] (scheme ++ ':' :: '/' :: '/' :: (netloc ++ path)) =
      ⟨scheme, netloc, path, [], [], []⟩ := by
    rw [urlsplitStr, splitScheme_eq [] _ scheme.length hfind
      ⟨List.length_pos.mpr h1, hhead, by rw [htake]; exact h3⟩]
    simp only [htake, hdrop, h4]
    rw [if_pos (startsWith_slashslash (netloc ++ path))]
    simp only [List.drop_succ_cons, List.drop_zero, hnet]
    have hnoq : path.contains '?' = false :=
      contains_eq_false_of path '?' (fun x hx => (h8 x hx).2.1)
    have hnof : path.contains '#' = false :=
      contains_eq_false_of path '#' (fun x hx => (h8 x hx).2.2.1)
    rw [if_neg (ne_true_of_eq_false hnof)]
    rw [if_neg (ne_true_of_eq_false hnoq)]
  rw [urlparseStr, hsplit]
  simp only []
  rw [splitParams_no_semicolon path (fun x hx => (h8 x hx).2.2.2)]

lemma urlunparse_canonical (scheme netloc path : Str)
    (h1 : scheme ≠ []) (h5 : netloc ≠ [])
    (h7 : path = [] ∨ ∃ p', path = '/' :: p') :
    urlunparseStr ⟨scheme, netloc, path, [], [], []⟩ =
      scheme ++ ':' :: '/' :: '/' :: (netloc ++ path) := by
  rcases h7 with h7 | ⟨p', h7⟩ <;> subst h7 <;>
    simp [urlunparseStr, h1, h5]

lemma decode_url_canonical (u : Str) (hne : u ≠ [])
    (hnp : ∀ c ∈ u, c ≠ '%')
    (hq : (urlparseStr [] u).query = []) :
    decode_url_fragments u = u := by
  rw [decode_url_fragments, if_neg hne]
  dsimp only
  rw [unquote_of_no_percent u hnp, hq]
  have hb : b64Lookup (parse_qs false []) b64Keys = none := by rfl
  rw [hb]

lemma strip_canonical (scheme netloc path : Str)
    (h1 : scheme ≠ []) (h2 : headAlpha scheme = true)
    (h3 : scheme.all schemeChar = true) (h4 : lowerStr scheme = scheme)
    (h5 : netloc ≠ [])
    (h6 : ∀ c ∈ netloc, netlocDelim c = false)
    (h7 : path = [] ∨ ∃ p', path = '/' :: p')
    (h8 : ∀ c ∈ path, c ≠ '%' ∧ c ≠ '?' ∧ c ≠ '#' ∧ c ≠ ';')
    (hne : scheme ++ ':' :: '/' :: '/' :: (netloc ++ path) ≠ []) :
    strip_tracking_params (scheme ++ ':' :: '/' :: '/' :: (netloc ++ path)) =
      scheme ++ ':' :: '/' :: '/' :: (netloc ++ path) := by
  rw [strip_tracking_params, if_neg hne]
  dsimp only
  rw [urlparse_canonical scheme netloc path h1 h2 h3 h4 h6 h7 h8]
  dsimp only
  have hq : (parse_qs true []).filter (fun kv => lowerStr kv.1 ∉ spamParams) = [] := by rfl
  rw [hq]
  have hu : urlencode [] = [] := by rfl
  rw [hu]
  exact urlunparse_canonical scheme netloc path h1 h5 h7

/-- C4 amended: `cleanManifestUrl` is not idempotent in general —
percent-decoding happens once per call, so a doubly-encoded URL decodes
further on the second call (see the counterexample) — but it is the
identity, hence idempotent, on canonical absolute URLs
`scheme://host[/path]` (lower-case scheme, non-empty host) containing no
percent-escape, query, fragment or parameter delimiter. -/
theorem C4_clean_m3u8_url (scheme netloc path : Str)
    (h1 : scheme ≠ []) (h2 : headAlpha scheme = true)
    (h3 : scheme.all schemeChar = true) (h4 : lowerStr scheme = scheme)
    (h5 : netloc ≠ [])
    (h6 : ∀ c ∈ netloc, netlocDelim c = false ∧ c ≠ '%')
    (h7 : path = [] ∨ ∃ p', path = '/' :: p')
    (h8 : ∀ c ∈ path, c ≠ '%' ∧ c ≠ '?' ∧ c ≠ '#' ∧ c ≠ ';') :
    clean_m3u8_url (scheme ++ ':' :: '/' :: '/' :: (netloc ++ path)) =
      scheme ++ ':' :: '/' :: '/' :: (netloc ++ path) ∧
    clean_m3u8_url (clean_m3u8_url (scheme ++ ':' :: '/' :: '/' :: (netloc ++ path))) =
      clean_m3u8_url (scheme ++ ':' :: '/' :: '/' :: (netloc ++ path)) := by
  have hne : scheme ++ ':' :: '/' :: '/' :: (netloc ++ path) ≠ [] := by
    cases scheme with
    | nil => exact absurd rfl h1
    | cons c s => simp
  have hnp : ∀ c ∈ scheme ++ ':' :: '/' :: '/' :: (netloc ++ path), c ≠ '%' := by
    intro c hc
    rcases List.mem_append.mp hc with hc | hc
    · exact (schemeChar_ne c (List.all_eq_true.mp h3 c hc)).2.1
    · rcases List.mem_cons.mp hc with rfl | hc
      · decide
      · rcases List.mem_cons.mp hc with rfl | hc
        · decide
        · rcases List.mem_cons.mp hc with rfl | hc
          · decide
          · rcases List.mem_append.mp hc with hc | hc
            · exact (h6 c hc).2
            · exact (h8 c hc).1
  have hq : (urlparseStr [] (scheme ++ ':' :: '/' :: '/' :: (netloc ++ path))).query
      = [] := by
    rw [urlparse_canonical scheme netloc path h1 h2 h3 h4
      (fun c hc => (h6 c hc).1) h7 h8]
  have hclean : clean_m3u8_url (scheme ++ ':' :: '/' :: '/' :: (netloc ++ path)) =
      scheme ++ ':' :: '/' :: '/' :: (netloc ++ path) := by
    rw [clean_m3u8_url, if_neg hne,
      decode_url_canonical _ hne hnp hq,
      strip_canonical scheme netloc path h1 h2 h3 h4 h5
        (fun c hc => (h6 c hc).1) h7 h8 hne]
  exact ⟨hclean, by rw [hclean, hclean]⟩

theorem C4_clean_m3u8_url_witness :
    clean_m3u8_url ("https://x/a.m3u8".toList) = "https://x/a.m3u8".toList := by
  have h := (C4_clean_m3u8_url "https".toList "x".toList "/a.m3u8".toList
    (by decide) (by decide) (by decide) (by decide) (by decide)
    (by decide) (Or.inr ⟨"a.m3u8".toList, by decide⟩) (by decide)).1
  have heq : "https://x/a.m3u8".toList =
      "https".toList ++ ':' :: '/' :: '/' :: ("x".toList ++ "/a.m3u8".toList) := by
    decide
  rw [heq]
  exact h

end M3U8Hunter
